/-
Verification of the OSM-Firefighter core engine: a shallow embedding of the
CSR graph store and parser (`src/backend/src/graph.rs`), the one-to-all
Dijkstra run, and the time-stepped fire-spread / containment simulation
(`src/backend/src/firefighter/problem.rs`), together with proofs of the
specified properties.  Machine integers (`usize`, `u64`) are modelled as
`Nat`; the `usize::MAX` sentinel used by Dijkstra is kept as the literal
`2 ^ 64 - 1`.
-/
import Mathlib

namespace OSMF

/-- The `usize::MAX` sentinel (64-bit platform), used by `run_dijkstra` as the
"infinite" initial distance. -/
def USIZE_MAX : Nat := 2 ^ 64 - 1

/-- A directed graph edge with source, target and weight, mirroring
`struct Edge { src, tgt, dist }` in `graph.rs`. -/
structure Edge where
  src : Nat
  tgt : Nat
  dist : Nat
deriving DecidableEq, Repr

/-- A graph node, mirroring `struct Node { id, lat, lon }` in `graph.rs`;
the `f64` coordinates are modelled as rationals. -/
structure Node where
  id : Nat
  lat : Rat
  lon : Rat
deriving DecidableEq, Repr

/-- The CSR graph store, mirroring `struct Graph` in `graph.rs`. -/
structure Graph where
  nodes : List Node
  edges : List Edge
  offsets : List Nat
  num_nodes : Nat
  num_edges : Nat
deriving DecidableEq, Repr

/-- Default edge value used for (hypothesis-guarded) list indexing. -/
def eDefault : Edge := ⟨0, 0, 0⟩

/-- Read `offsets[i]` (guarded by hypotheses wherever it matters). -/
def Graph.offAt (g : Graph) (i : Nat) : Nat := g.offsets.getD i 0

/-- Read `edges[i]` (guarded by hypotheses wherever it matters). -/
def Graph.edgeAt (g : Graph) (i : Nat) : Edge := g.edges.getD i eDefault

/-- Valid CSR shape: `offsets` has length `num_nodes + 1`, is non-decreasing,
ends at `edges.length`, and every edge target is a valid node id. -/
def Graph.WF (g : Graph) : Prop :=
  g.offsets.length = g.num_nodes + 1 ∧
  (∀ i, i < g.num_nodes → g.offAt i ≤ g.offAt (i + 1)) ∧
  g.offAt g.num_nodes = g.edges.length ∧
  (∀ e ∈ g.edges, e.tgt < g.num_nodes)

instance (g : Graph) : Decidable g.WF := by
  unfold Graph.WF; infer_instance

/-- The half-open integer interval `[a, b)` as a list, used to model Rust's
`for i in a..b` loops. -/
def natRangeAux : Nat → Nat → List Nat
  | _, 0 => []
  | a, k + 1 => a :: natRangeAux (a + 1) k

/-- Model of `for i in a..b`. -/
def natRange (a b : Nat) : List Nat := natRangeAux a (b - a)

/-- Existence of a directed walk from `src` to a node, of a given total edge
weight, following the CSR adjacency (`edges[offsets[u]..offsets[u+1])` are the
out-edges of `u`). -/
inductive HasWalk (g : Graph) (src : Nat) : Nat → Nat → Prop where
  | refl : HasWalk g src src 0
  | step : ∀ {u w i}, HasWalk g src u w → g.offAt u ≤ i → i < g.offAt (u + 1) →
      HasWalk g src (g.edgeAt i).tgt (w + (g.edgeAt i).dist)

/-- State of a Dijkstra run: the external distance array plus the queue of
node ids held by the heap. -/
structure DState where
  dist : List Nat
  pq : List Nat
deriving DecidableEq, Repr

/-- Modelled from the spec: the node whose current external distance is
minimal among `best :: rest` (first minimum); the `BinaryMinHeap` source file
(`binary_minheap.rs`) is not part of the provided sources, and the spec
describes `pop` as removing and returning the node with minimum current
distance. -/
def selMin (dist : List Nat) : Nat → List Nat → Nat
  | best, [] => best
  | best, x :: xs =>
    if dist.getD x 0 < dist.getD best 0 then selMin dist x xs else selMin dist best xs

/-- Modelled from the spec: `BinaryMinHeap::pop(distances)` — remove and
return the node with minimum current distance. -/
def popMin (dist : List Nat) (pq : List Nat) : Nat × List Nat :=
  match pq with
  | [] => (0, [])
  | x :: xs =>
    let m := selMin dist x xs
    (m, (x :: xs).erase m)

/-- Modelled from the spec: `BinaryMinHeap::push`. -/
def heapPush (pq : List Nat) (v : Nat) : List Nat := pq ++ [v]

/-- Modelled from the spec: `BinaryMinHeap::contains`. -/
def heapContains (pq : List Nat) (v : Nat) : Bool := pq.contains v

/-- One relaxation of edge index `i` out of settled node `u`, mirroring the
inner loop body of `run_dijkstra`: `dist = distances[node] + edge.dist; if
dist < distances[edge.tgt] { update; push or decrease_key }` (`decrease_key`
has no observable effect in the set-level heap model). -/
def relaxStep (g : Graph) (u : Nat) (s : DState) (i : Nat) : DState :=
  let e := g.edgeAt i
  let d := s.dist.getD u 0 + e.dist
  if d < s.dist.getD e.tgt 0 then
    { dist := s.dist.set e.tgt d,
      pq := if heapContains s.pq e.tgt then s.pq else heapPush s.pq e.tgt }
  else s

/-- Relax all out-edges of `u`: `for i in offsets[node]..offsets[node+1]`. -/
def relaxAll (g : Graph) (u : Nat) (s : DState) : DState :=
  (natRange (g.offAt u) (g.offAt (u + 1))).foldl (relaxStep g u) s

/-- The `while !pq.is_empty()` loop of `run_dijkstra`, driven by fuel; the
fuel passed by `run_dijkstra` is proved sufficient for the queue to drain. -/
def dijkstraLoop (g : Graph) : Nat → DState → DState
  | 0, s => s
  | fuel + 1, s =>
    match s.pq with
    | [] => s
    | x :: xs =>
      let p := popMin s.dist (x :: xs)
      dijkstraLoop g fuel (relaxAll g p.1 { s with pq := p.2 })

/-- Fuel that strictly dominates the loop measure of any run. -/
def dijkFuel (g : Graph) : Nat := (g.num_nodes * USIZE_MAX + 1) * (g.num_nodes + 2)

/-- One-to-all Dijkstra from `src_id`, mirroring `Graph::run_dijkstra`:
distances start at `usize::MAX` except `distances[src] = 0`, the source is
pushed, then minimum-distance nodes are popped and relaxed until the heap is
empty. -/
def run_dijkstra (g : Graph) (src : Nat) : List Nat :=
  let dist0 := (List.replicate g.num_nodes USIZE_MAX).set src 0
  (dijkstraLoop g (dijkFuel g) { dist := dist0, pq := [src] }).dist

/-- Loop measure for `dijkstraLoop`: each iteration strictly decreases it. -/
def dMeasure (g : Graph) (s : DState) : Nat :=
  s.dist.sum * (g.num_nodes + 1) + s.pq.length

/- ----------------------------------------------------------------- -/
/- Simulation engine (`firefighter/problem.rs`)                      -/
/- ----------------------------------------------------------------- -/

/-- Ordered-map insert (model of `BTreeMap::insert`): keeps the association
list strictly sorted by key, overwriting an existing binding. -/
def insertKV : List (Nat × Nat) → Nat → Nat → List (Nat × Nat)
  | [], k, v => [(k, v)]
  | (k', v') :: rest, k, v =>
    if k < k' then (k, v) :: (k', v') :: rest
    else if k = k' then (k, v) :: rest
    else (k', v') :: insertKV rest k v

/-- Ordered-map lookup (model of `BTreeMap::get`). -/
def lookupKV : List (Nat × Nat) → Nat → Option Nat
  | [], _ => none
  | (k', v') :: rest, k => if k = k' then some v' else lookupKV rest k

/-- Keys strictly ascending — the invariant of the `BTreeMap` model. -/
def keysSorted : List (Nat × Nat) → Bool
  | [] => true
  | [_] => true
  | a :: b :: r => a.1 < b.1 && keysSorted (b :: r)

/-- Storage for per-node firefighter data, mirroring `NodeDataStorage`:
two ordered maps from node id to the transition time (`NodeData.time`). -/
structure NodeDataStorage where
  burning : List (Nat × Nat)
  defended : List (Nat × Nat)
deriving DecidableEq, Repr

/-- Mirror of `NodeDataStorage::is_burning`. -/
def NodeDataStorage.is_burning (nd : NodeDataStorage) (v : Nat) : Bool :=
  (lookupKV nd.burning v).isSome

/-- Mirror of `NodeDataStorage::is_defended`. -/
def NodeDataStorage.is_defended (nd : NodeDataStorage) (v : Nat) : Bool :=
  (lookupKV nd.defended v).isSome

/-- Mirror of `NodeDataStorage::is_undefended`: absent from both maps. -/
def NodeDataStorage.is_undefended (nd : NodeDataStorage) (v : Nat) : Bool :=
  !(nd.is_burning v || nd.is_defended v)

/-- Mirror of `NodeDataStorage::mark_burning`. -/
def NodeDataStorage.mark_burning (nd : NodeDataStorage) (nodes : List Nat)
    (time : Nat) : NodeDataStorage :=
  { nd with burning := nodes.foldl (fun m k => insertKV m k time) nd.burning }

/-- Mirror of `NodeDataStorage::mark_defended`. -/
def NodeDataStorage.mark_defended (nd : NodeDataStorage) (nodes : List Nat)
    (time : Nat) : NodeDataStorage :=
  { nd with defended := nodes.foldl (fun m k => insertKV m k time) nd.defended }

/-- The mutable simulation state of `OSMFProblem` (graph and settings are
immutable and passed separately). -/
structure OSMFProblem where
  node_data : NodeDataStorage
  global_time : Nat
  is_active : Bool
deriving DecidableEq, Repr

/-- The containment configuration: the `strategy_every` cadence together with
the strategy's `execute` action on the node-data store.  The source strategy
implementations (`strategy.rs`) are not part of the provided sources, so
`execute` is an arbitrary function of the store and the current tick; the
spec's contract for it is the `GoodExec` predicate below. -/
structure SimCfg where
  strategy_every : Nat
  exec : NodeDataStorage → Nat → NodeDataStorage

/-- Spec contract for a strategy's `execute` (§4.5, §3): it never touches the
burning map and never removes a defended record. -/
def GoodExec (cfg : SimCfg) : Prop :=
  ∀ nd t, (cfg.exec nd t).burning = nd.burning ∧
    ∀ v, (lookupKV nd.defended v).isSome → (lookupKV ((cfg.exec nd t)).defended v).isSome

/-- Scan step for one out-edge of a burning node (body of the inner loop of
`spread_fire`): an undefended target makes the state active, and it is
appended to `to_burn` once `global_time >= node_data.time + edge.dist`.
The u64 sum is idealized here as unbounded Nat addition; the release
build's wrapping sum is modelled faithfully by `burnScanEdgeWrap` below,
and the two agree exactly while `node_data.time + edge.dist < 2^64`. -/
def burnScanEdge (g : Graph) (nd : NodeDataStorage) (gt tb : Nat)
    (acc : List Nat × Bool) (i : Nat) : List Nat × Bool :=
  let e := g.edgeAt i
  if nd.is_undefended e.tgt then
    (if gt ≥ tb + e.dist then acc.1 ++ [e.tgt] else acc.1, true)
  else acc

/-- The scanning phase of `spread_fire`: fold over all burning records (in
ascending key order, as `BTreeMap::values` iterates) and over each one's
out-edge range, starting from `is_active = false` and an empty `to_burn`. -/
def spread_scan (g : Graph) (nd : NodeDataStorage) (gt : Nat) : List Nat × Bool :=
  nd.burning.foldl
    (fun acc kv =>
      (natRange (g.offAt kv.1) (g.offAt (kv.1 + 1))).foldl (burnScanEdge g nd gt kv.2) acc)
    ([], false)

/-- Mirror of `OSMFProblem::spread_fire`: scan, then mark every node of
`to_burn` burning at the current global time. -/
def spread_fire (g : Graph) (s : OSMFProblem) : OSMFProblem :=
  let sc := spread_scan g s.node_data s.global_time
  { s with is_active := sc.2,
           node_data := s.node_data.mark_burning sc.1 s.global_time }

/-- Mirror of `OSMFProblem::contain_fire`: run the strategy's `execute`
exactly when `global_time % strategy_every == 0`. -/
def contain_fire (cfg : SimCfg) (s : OSMFProblem) : OSMFProblem :=
  if s.global_time % cfg.strategy_every = 0 then
    { s with node_data := cfg.exec s.node_data s.global_time }
  else s

/-- Increment of the global tick at the start of `exec_step`. -/
def bumpTime (s : OSMFProblem) : OSMFProblem :=
  { s with global_time := s.global_time + 1 }

/-- Mirror of `OSMFProblem::exec_step`: bump the clock, contain, then spread. -/
def exec_step (cfg : SimCfg) (g : Graph) (s : OSMFProblem) : OSMFProblem :=
  spread_fire g (contain_fire cfg (bumpTime s))

/-- Iterated `exec_step` (forced, without the `is_active` guard). -/
def iterSteps (cfg : SimCfg) (g : Graph) : Nat → OSMFProblem → OSMFProblem
  | 0, s => s
  | k + 1, s => iterSteps cfg g k (exec_step cfg g s)

/-- Mirror of `OSMFProblem::simulate`: `while is_active { exec_step }`,
driven by fuel. -/
def simulateFuel (cfg : SimCfg) (g : Graph) : Nat → OSMFProblem → OSMFProblem
  | 0, s => s
  | f + 1, s => if s.is_active then simulateFuel cfg g f (exec_step cfg g s) else s

/-- Mirror of the root-selection loop of `OSMFProblem::gen_fire_roots`: draw
node ids from the rng stream `draws` while fewer than `num_roots` have been
collected, keeping a draw only if it is currently undefended; `none` models
exhausting the supplied draw list. -/
def genRootsLoop (num_roots : Nat) (nd : NodeDataStorage) :
    List Nat → List Nat → Option (List Nat)
  | roots, [] => if roots.length < num_roots then none else some roots
  | roots, d :: rest =>
    if roots.length < num_roots then
      genRootsLoop num_roots nd (if nd.is_undefended d then roots ++ [d] else roots) rest
    else some roots

/-- Mirror of `OSMFProblem::gen_fire_roots`: collect the roots, then mark
them all burning at the current global time. -/
def gen_fire_roots (num_roots : Nat) (draws : List Nat) (s : OSMFProblem) :
    Option (List Nat × OSMFProblem) :=
  match genRootsLoop num_roots s.node_data [] draws with
  | none => none
  | some roots =>
    some (roots, { s with node_data := s.node_data.mark_burning roots s.global_time })

/-- Mirror of `OSMFProblem::new`: abort (`none`, modelling `panic!`) when
`num_roots > num_nodes`, otherwise start from empty node data at tick 0 with
`is_active = true` and ignite the fire roots.  The strategy `precompute`
(in the absent `strategy.rs`) mutates only strategy-internal state, which the
abstract `SimCfg.exec` accounts for, and the `View` collaborator is out of
scope per §1 of the spec. -/
def OSMFProblem.new_checked (g : Graph) (num_roots : Nat) (draws : List Nat) :
    Option OSMFProblem :=
  if num_roots > g.num_nodes then none
  else
    match gen_fire_roots num_roots draws
        { node_data := ⟨[], []⟩, global_time := 0, is_active := true } with
    | none => none
    | some p => some p.2

/- ----------------------------------------------------------------- -/
/- Graph file parsing (`Graph::parse_graph` / `Graph::from_file`)    -/
/- ----------------------------------------------------------------- -/

/-- A line of the input file, as its character list (`String` wraps exactly
this data; the character level keeps the parser kernel-computable). -/
def Line : Type := List Char

/-- Model of Rust's `str::split(" ")`: split at every single space character,
consecutive or border spaces producing empty fields. -/
def splitSp : List Char → List (List Char)
  | [] => [[]]
  | c :: cs =>
    if c = ' ' then [] :: splitSp cs
    else
      match splitSp cs with
      | f :: rest => (c :: f) :: rest
      | [] => [[c]]

/-- Model of `str::starts_with("#")`. -/
def startsWithHash : List Char → Bool
  | '#' :: _ => true
  | _ => false

/-- Numeric value of a digit string. -/
def digitsVal (cs : List Char) : Nat :=
  cs.foldl (fun a c => a * 10 + (c.toNat - 48)) 0

/-- Model of the standard library's `str::parse::<usize>`: a non-empty,
all-digit string whose value fits in `usize`. -/
def parseNatStr (cs : List Char) : Option Nat :=
  match cs with
  | [] => none
  | _ =>
    if cs.all Char.isDigit then
      if digitsVal cs ≤ USIZE_MAX then some (digitsVal cs) else none
    else none

/-- Model of the standard library's `str::parse::<f64>` on plain decimal
notation `[-]digits[.digits]` (at least one digit), which covers the
coordinate fields of the graph file format; the value is kept as a rational. -/
def parseFloatStr (s : List Char) : Option Rat :=
  let core : List Char → Option Rat := fun cs =>
    let ip := cs.takeWhile Char.isDigit
    let rest := cs.dropWhile Char.isDigit
    match rest with
    | [] => if ip.isEmpty then none else some ((digitsVal ip : Int) : Rat)
    | '.' :: fr =>
      if fr.all Char.isDigit && (!ip.isEmpty || !fr.isEmpty) then
        some (mkRat (digitsVal ip * 10 ^ fr.length + digitsVal fr) (10 ^ fr.length))
      else none
    | _ => none
  match s with
  | '-' :: cs => (core cs).map (fun q => -q)
  | cs => core cs

/-- Parse `count` node lines (`id id lat lon ...`), mirroring the node loop of
`parse_graph`: the two leading id fields are skipped and the stored node id is
the running index; a missing or malformed field aborts (`none`). -/
def parseNodes : Nat → Nat → List Line → List Node → Option (List Node × List Line)
  | 0, _, ls, acc => some (acc.reverse, ls)
  | _ + 1, _, [], _ => none
  | k + 1, i, l :: ls, acc =>
    match splitSp l with
    | _ :: _ :: f2 :: f3 :: _ =>
      match parseFloatStr f2, parseFloatStr f3 with
      | some la, some lo => parseNodes k (i + 1) ls (⟨i, la, lo⟩ :: acc)
      | _, _ => none
    | _ => none

/-- Store `off` into `offsets[j], offsets[j+1], ..., offsets[j+k-1]`,
mirroring the `for j in (last_src + 1)..=edge.src` fill; `none` models the
out-of-bounds panic when an index reaches past the offsets vector. -/
def fillOffsetsAux (off : Nat) : Nat → Nat → List Nat → Option (List Nat)
  | _, 0, offs => some offs
  | j, k + 1, offs =>
    if j < offs.length then fillOffsetsAux off (j + 1) k (offs.set j off) else none

/-- Parse `count` edge lines (`src tgt dist ...`) while building `offsets` in
one pass, mirroring the edge loop of `parse_graph` with its `last_src` and
running-`offset` bookkeeping. -/
def parseEdges : Nat → List Line → Int → Nat → List Edge → List Nat →
    Option (List Edge × List Nat × List Line)
  | 0, ls, _, _, accE, offs => some (accE.reverse, offs, ls)
  | _ + 1, [], _, _, _, _ => none
  | k + 1, l :: ls, last_src, off, accE, offs =>
    match splitSp l with
    | f0 :: f1 :: f2 :: _ =>
      match parseNatStr f0, parseNatStr f1, parseNatStr f2 with
      | some src, some tgt, some dist =>
        if (src : Int) > last_src then
          match fillOffsetsAux off (last_src + 1).toNat
              (src + 1 - (last_src + 1).toNat) offs with
          | none => none
          | some offs' =>
            parseEdges k ls (src : Int) (off + 1) (⟨src, tgt, dist⟩ :: accE) offs'
        else parseEdges k ls last_src (off + 1) (⟨src, tgt, dist⟩ :: accE) offs
      | _, _, _ => none
    | _ => none

/-- Drop leading `#`-comment lines. -/
def dropComments : List Line → List Line
  | [] => []
  | l :: ls => if startsWithHash l then dropComments ls else l :: ls

/-- Mirror of `Graph::parse_graph` over the file's lines.  The header loop
consumes every leading comment line and also the first non-comment line,
then the node count, the edge count, the node lines and the edge lines
follow; `none` models both the propagated `ParseError` and the `expect`
panics on truncated input, all of which abort `Graph::from_file`. -/
def parse_graph (lines : List Line) : Option Graph :=
  match dropComments lines with
  | [] => none
  | _header :: rest =>
    match rest with
    | [] => none
    | lnn :: rest1 =>
      match parseNatStr lnn with
      | none => none
      | some num_nodes =>
        match rest1 with
        | [] => none
        | lne :: rest2 =>
          match parseNatStr lne with
          | none => none
          | some num_edges =>
            match parseNodes num_nodes 0 rest2 [] with
            | none => none
            | some (nodes, rest3) =>
              match parseEdges num_edges rest3 (-1) 0 []
                  (List.replicate (num_nodes + 1) 0) with
              | none => none
              | some (edges, offs, _) =>
                some { nodes := nodes, edges := edges,
                       offsets := offs.set num_nodes num_edges,
                       num_nodes := num_nodes, num_edges := num_edges }

/-- Mirror of `Graph::from_file`: identical to `parse_graph` because every
parse failure is turned into a `panic!` there (modelled by `none`). -/
def from_file (lines : List Line) : Option Graph := parse_graph lines

/- ----------------------------------------------------------------- -/
/- Checked simulation step (for the error-handling claim)            -/
/- ----------------------------------------------------------------- -/

/-- Bounds-checked variant of the spread scan: every offsets and edge access
uses checked indexing, `none` modelling an index-out-of-bounds panic. -/
def spread_scan_checked (g : Graph) (nd : NodeDataStorage) (gt : Nat) :
    Option (List Nat × Bool) :=
  nd.burning.foldlM
    (fun acc kv =>
      match g.offsets.get? kv.1, g.offsets.get? (kv.1 + 1) with
      | some o1, some o2 =>
        (natRange o1 o2).foldlM
          (fun acc2 i =>
            match g.edges.get? i with
            | some e =>
              some (if nd.is_undefended e.tgt then
                      (if gt ≥ kv.2 + e.dist then acc2.1 ++ [e.tgt] else acc2.1, true)
                    else acc2)
            | none => none)
          acc
      | _, _ => none)
    (([] : List Nat), false)

/-- Bounds- and totality-checked `exec_step`: additionally guards the
`global_time % strategy_every` operation, `none` modelling the mod-by-zero
panic. -/
def exec_step_checked (cfg : SimCfg) (g : Graph) (s : OSMFProblem) :
    Option OSMFProblem :=
  if cfg.strategy_every = 0 then none
  else
    let s1 := contain_fire cfg (bumpTime s)
    match spread_scan_checked g s1.node_data s1.global_time with
    | none => none
    | some sc =>
      some { s1 with is_active := sc.2,
                     node_data := s1.node_data.mark_burning sc.1 s1.global_time }

/-- Invariant of reachable simulation states: burning records carry valid
node ids and times no later than the clock, and the burning map is a sorted
`BTreeMap` snapshot. -/
def SimInv (g : Graph) (s : OSMFProblem) : Prop :=
  (∀ kv ∈ s.node_data.burning, kv.1 < g.num_nodes ∧ kv.2 ≤ s.global_time) ∧
  keysSorted s.node_data.burning = true

instance (g : Graph) (s : OSMFProblem) : Decidable (SimInv g s) := by
  unfold SimInv; infer_instance

/- ----------------------------------------------------------------- -/
/- Basic list and ordered-map lemmas                                 -/
/- ----------------------------------------------------------------- -/

theorem mem_natRangeAux {k a x : Nat} : x ∈ natRangeAux a k ↔ a ≤ x ∧ x < a + k := by
  induction k generalizing a with
  | zero => simp [natRangeAux]
  | succ n ih => simp [natRangeAux, List.mem_cons, ih]; omega

theorem mem_natRange {a b x : Nat} : x ∈ natRange a b ↔ a ≤ x ∧ x < b := by
  unfold natRange; rw [mem_natRangeAux]; omega

theorem getD_set_self {α : Type} {l : List α} {i : Nat} {a d : α} (h : i < l.length) :
    (l.set i a).getD i d = a := by
  induction l generalizing i with
  | nil => simp at h
  | cons x xs ih =>
    cases i with
    | zero => rfl
    | succ n =>
      simp only [List.set_cons_succ, List.getD_cons_succ]
      exact ih (by simpa using h)

theorem getD_set_ne {α : Type} {l : List α} {i j : Nat} {a d : α} (h : i ≠ j) :
    (l.set i a).getD j d = l.getD j d := by
  induction l generalizing i j with
  | nil => simp
  | cons x xs ih =>
    cases i with
    | zero =>
      cases j with
      | zero => exact absurd rfl h
      | succ m => rfl
    | succ n =>
      cases j with
      | zero => rfl
      | succ m =>
        simp only [List.set_cons_succ, List.getD_cons_succ]
        exact ih (by omega)

theorem sum_set_add {l : List Nat} {i a : Nat} (h : i < l.length) :
    (l.set i a).sum + l.getD i 0 = l.sum + a := by
  induction l generalizing i with
  | nil => simp at h
  | cons x xs ih =>
    cases i with
    | zero => simp [List.sum_cons]; omega
    | succ n =>
      have hx := ih (i := n) (by simpa using h)
      simp only [List.set_cons_succ, List.sum_cons, List.getD_cons_succ]
      omega

theorem lookup_insertKV (m : List (Nat × Nat)) (k v k' : Nat) :
    lookupKV (insertKV m k v) k' = if k' = k then some v else lookupKV m k' := by
  induction m with
  | nil => simp [insertKV, lookupKV]
  | cons p rest ih =>
    obtain ⟨k1, v1⟩ := p
    simp only [insertKV]
    by_cases h1 : k < k1
    · simp only [if_pos h1, lookupKV]
    · simp only [if_neg h1]
      by_cases h2 : k = k1
      · subst h2
        simp only [if_pos rfl, lookupKV]
        by_cases h3 : k' = k <;> simp [h3]
      · simp only [if_neg h2, lookupKV, ih]
        by_cases h3 : k' = k1 <;> by_cases h4 : k' = k <;> simp_all

theorem mem_insertKV {m : List (Nat × Nat)} {k v : Nat} {kv : Nat × Nat}
    (h : kv ∈ insertKV m k v) : kv = (k, v) ∨ kv ∈ m := by
  induction m with
  | nil => simpa [insertKV] using h
  | cons p rest ih =>
    obtain ⟨k1, v1⟩ := p
    simp only [insertKV] at h
    split_ifs at h with h1 h2
    · rcases List.mem_cons.mp h with h | h
      · exact Or.inl h
      · exact Or.inr h
    · rcases List.mem_cons.mp h with h | h
      · exact Or.inl h
      · exact Or.inr (List.mem_cons_of_mem _ h)
    · rcases List.mem_cons.mp h with h | h
      · exact Or.inr (by simp [h])
      · rcases ih h with h' | h'
        · exact Or.inl h'
        · exact Or.inr (List.mem_cons_of_mem _ h')

theorem keysSorted_cons_iff {a : Nat × Nat} {m : List (Nat × Nat)} :
    keysSorted (a :: m) = true ↔ (keysSorted m = true ∧ ∀ kv ∈ m, a.1 < kv.1) := by
  induction m generalizing a with
  | nil => simp [keysSorted]
  | cons b rest ih =>
    simp only [keysSorted, Bool.and_eq_true, decide_eq_true_eq]
    constructor
    · rintro ⟨hab, hbr⟩
      refine ⟨hbr, ?_⟩
      intro kv hkv
      rcases List.mem_cons.mp hkv with h | h
      · rw [h]; exact hab
      · have := ((ih (a := b)).mp hbr).2 kv h
        omega
    · rintro ⟨hbr, hall⟩
      exact ⟨hall b (List.mem_cons_self _ _), hbr⟩

theorem keysSorted_insertKV {m : List (Nat × Nat)} (h : keysSorted m = true) (k v : Nat) :
    keysSorted (insertKV m k v) = true := by
  induction m with
  | nil => simp [insertKV, keysSorted]
  | cons p rest ih =>
    obtain ⟨k1, v1⟩ := p
    rw [keysSorted_cons_iff] at h
    obtain ⟨hrest, hlt⟩ := h
    simp only [insertKV]
    split_ifs with h1 h2
    · rw [keysSorted_cons_iff]
      refine ⟨keysSorted_cons_iff.mpr ⟨hrest, hlt⟩, ?_⟩
      intro kv hkv
      rcases List.mem_cons.mp hkv with h | h
      · rw [h]; exact h1
      · have := hlt kv h; omega
    · rw [keysSorted_cons_iff]
      refine ⟨hrest, ?_⟩
      intro kv hkv
      have := hlt kv hkv
      omega
    · rw [keysSorted_cons_iff]
      refine ⟨ih hrest, ?_⟩
      intro kv hkv
      rcases mem_insertKV hkv with h | h
      · rw [h]; simp; omega
      · exact hlt kv h

theorem lookup_mem_iff {m : List (Nat × Nat)} (hs : keysSorted m = true) {k v : Nat} :
    lookupKV m k = some v ↔ (k, v) ∈ m := by
  induction m with
  | nil => simp [lookupKV]
  | cons p rest ih =>
    obtain ⟨k1, v1⟩ := p
    rw [keysSorted_cons_iff] at hs
    obtain ⟨hrest, hlt⟩ := hs
    simp only [lookupKV, List.mem_cons]
    by_cases h : k = k1
    · subst h
      simp only [if_pos rfl]
      constructor
      · intro hv
        left
        have := Option.some.inj hv
        rw [this]
      · rintro (h | h)
        · have := (Prod.mk.injEq _ _ _ _).mp h
          simp [this.2]
        · have := hlt _ h
          omega
    · simp only [if_neg h]
      rw [ih hrest]
      constructor
      · exact Or.inr
      · rintro (h' | h')
        · exact absurd ((Prod.mk.injEq _ _ _ _).mp h').1 h
        · exact h'

theorem lookup_markList (L : List Nat) (t : Nat) (m : List (Nat × Nat)) (v : Nat) :
    lookupKV (L.foldl (fun acc k => insertKV acc k t) m) v =
      if v ∈ L then some t else lookupKV m v := by
  induction L generalizing m with
  | nil => simp
  | cons a L ih =>
    simp only [List.foldl_cons]
    rw [ih]
    by_cases h1 : v ∈ L
    · simp [h1, List.mem_cons]
    · simp only [if_neg h1]
      rw [lookup_insertKV]
      by_cases h2 : v = a
      · simp [h2, List.mem_cons]
      · simp [h2, h1, List.mem_cons]

theorem keysSorted_markList (L : List Nat) (t : Nat) {m : List (Nat × Nat)}
    (h : keysSorted m = true) :
    keysSorted (L.foldl (fun acc k => insertKV acc k t) m) = true := by
  induction L generalizing m with
  | nil => simpa
  | cons a L ih => exact ih (keysSorted_insertKV h a t)

theorem mem_markList {L : List Nat} {t : Nat} {m : List (Nat × Nat)} {kv : Nat × Nat}
    (h : kv ∈ L.foldl (fun acc k => insertKV acc k t) m) :
    (kv.1 ∈ L ∧ kv.2 = t) ∨ kv ∈ m := by
  induction L generalizing m with
  | nil => exact Or.inr (by simpa using h)
  | cons a L ih =>
    rcases ih (by simpa using h) with h' | h'
    · exact Or.inl ⟨List.mem_cons_of_mem _ h'.1, h'.2⟩
    · rcases mem_insertKV h' with h'' | h''
      · subst h''
        exact Or.inl ⟨List.mem_cons_self _ _, rfl⟩
      · exact Or.inr h''

theorem isSome_markList {L : List Nat} {t : Nat} {m : List (Nat × Nat)} {v : Nat}
    (h : (lookupKV m v).isSome = true) :
    (lookupKV (L.foldl (fun acc k => insertKV acc k t) m) v).isSome = true := by
  rw [lookup_markList]
  split_ifs with h1
  · rfl
  · exact h

/- ----------------------------------------------------------------- -/
/- Characterization of the spread-fire scan                          -/
/- ----------------------------------------------------------------- -/

theorem burnScan_fold_fst {g : Graph} {nd : NodeDataStorage} {gt tb : Nat} :
    ∀ (L : List Nat) (acc : List Nat × Bool) (v : Nat),
      (v ∈ (L.foldl (burnScanEdge g nd gt tb) acc).1 ↔
        v ∈ acc.1 ∨ ∃ i ∈ L, (g.edgeAt i).tgt = v ∧ nd.is_undefended v = true ∧
          tb + (g.edgeAt i).dist ≤ gt) := by
  intro L
  induction L with
  | nil => intro acc v; simp
  | cons i0 L ih =>
    intro acc v
    simp only [List.foldl_cons]
    rw [ih]
    constructor
    · rintro (hm | ⟨i, hi, he⟩)
      · simp only [burnScanEdge] at hm
        split_ifs at hm with h1 h2
        · rcases List.mem_append.mp hm with h | h
          · exact Or.inl h
          · have hv : (g.edgeAt i0).tgt = v := (List.mem_singleton.mp h).symm
            right
            exact ⟨i0, List.mem_cons_self _ _, hv, by rw [← hv]; exact h1, h2⟩
        · exact Or.inl hm
        · exact Or.inl hm
      · exact Or.inr ⟨i, List.mem_cons_of_mem _ hi, he⟩
    · rintro (hm | ⟨i, hi, htgt, hund, htime⟩)
      · left
        simp only [burnScanEdge]
        split_ifs with h1 h2
        · exact List.mem_append.mpr (Or.inl hm)
        · exact hm
        · exact hm
      · rcases List.mem_cons.mp hi with h | h
        · subst h
          left
          simp [burnScanEdge, htgt, hund, htime]
        · exact Or.inr ⟨i, h, htgt, hund, htime⟩

theorem burnScan_fold_snd {g : Graph} {nd : NodeDataStorage} {gt tb : Nat} :
    ∀ (L : List Nat) (acc : List Nat × Bool),
      ((L.foldl (burnScanEdge g nd gt tb) acc).2 = true ↔
        acc.2 = true ∨ ∃ i ∈ L, nd.is_undefended (g.edgeAt i).tgt = true) := by
  intro L
  induction L with
  | nil => intro acc; simp
  | cons i0 L ih =>
    intro acc
    simp only [List.foldl_cons]
    rw [ih]
    simp only [burnScanEdge]
    split_ifs with h1 h2
    · simp only []
      constructor
      · intro _
        exact Or.inr ⟨i0, List.mem_cons_self _ _, h1⟩
      · intro _
        exact Or.inl (by trivial)
    · simp only []
      constructor
      · intro _
        exact Or.inr ⟨i0, List.mem_cons_self _ _, h1⟩
      · intro _
        exact Or.inl (by trivial)
    · constructor
      · rintro (h | ⟨i, hi, hu⟩)
        · exact Or.inl h
        · exact Or.inr ⟨i, List.mem_cons_of_mem _ hi, hu⟩
      · rintro (h | ⟨i, hi, hu⟩)
        · exact Or.inl h
        · rcases List.mem_cons.mp hi with h' | h'
          · subst h'
            exact absurd hu (by simp [h1])
          · exact Or.inr ⟨i, h', hu⟩

theorem spreadOuter_fst {g : Graph} {nd : NodeDataStorage} {gt : Nat} :
    ∀ (B : List (Nat × Nat)) (acc : List Nat × Bool) (v : Nat),
      (v ∈ (B.foldl (fun a kv =>
          (natRange (g.offAt kv.1) (g.offAt (kv.1 + 1))).foldl
            (burnScanEdge g nd gt kv.2) a) acc).1 ↔
        v ∈ acc.1 ∨ ∃ kv ∈ B, ∃ i, g.offAt kv.1 ≤ i ∧ i < g.offAt (kv.1 + 1) ∧
          (g.edgeAt i).tgt = v ∧ nd.is_undefended v = true ∧
          kv.2 + (g.edgeAt i).dist ≤ gt) := by
  intro B
  induction B with
  | nil => intro acc v; simp
  | cons kv B ih =>
    intro acc v
    simp only [List.foldl_cons]
    rw [ih, burnScan_fold_fst]
    constructor
    · rintro ((hm | ⟨i, hi, he⟩) | ⟨kv', hkv', hrest⟩)
      · exact Or.inl hm
      · exact Or.inr ⟨kv, List.mem_cons_self _ _, i, (mem_natRange.mp hi).1,
          (mem_natRange.mp hi).2, he.1, he.2.1, he.2.2⟩
      · exact Or.inr ⟨kv', List.mem_cons_of_mem _ hkv', hrest⟩
    · rintro (hm | ⟨kv', hkv', i, h1, h2, h3, h4, h5⟩)
      · exact Or.inl (Or.inl hm)
      · rcases List.mem_cons.mp hkv' with h | h
        · subst h
          exact Or.inl (Or.inr ⟨i, mem_natRange.mpr ⟨h1, h2⟩, h3, h4, h5⟩)
        · exact Or.inr ⟨kv', h, i, h1, h2, h3, h4, h5⟩

theorem spreadOuter_snd {g : Graph} {nd : NodeDataStorage} {gt : Nat} :
    ∀ (B : List (Nat × Nat)) (acc : List Nat × Bool),
      ((B.foldl (fun a kv =>
          (natRange (g.offAt kv.1) (g.offAt (kv.1 + 1))).foldl
            (burnScanEdge g nd gt kv.2) a) acc).2 = true ↔
        acc.2 = true ∨ ∃ kv ∈ B, ∃ i, g.offAt kv.1 ≤ i ∧ i < g.offAt (kv.1 + 1) ∧
          nd.is_undefended (g.edgeAt i).tgt = true) := by
  intro B
  induction B with
  | nil => intro acc; simp
  | cons kv B ih =>
    intro acc
    simp only [List.foldl_cons]
    rw [ih, burnScan_fold_snd]
    constructor
    · rintro ((hm | ⟨i, hi, hu⟩) | ⟨kv', hkv', hrest⟩)
      · exact Or.inl hm
      · exact Or.inr ⟨kv, List.mem_cons_self _ _, i, (mem_natRange.mp hi).1,
          (mem_natRange.mp hi).2, hu⟩
      · exact Or.inr ⟨kv', List.mem_cons_of_mem _ hkv', hrest⟩
    · rintro (hm | ⟨kv', hkv', i, h1, h2, h3⟩)
      · exact Or.inl (Or.inl hm)
      · rcases List.mem_cons.mp hkv' with h | h
        · subst h
          exact Or.inl (Or.inr ⟨i, mem_natRange.mpr ⟨h1, h2⟩, h3⟩)
        · exact Or.inr ⟨kv', h, i, h1, h2, h3⟩

theorem mem_spread_scan {g : Graph} {nd : NodeDataStorage} {gt v : Nat}
    (hs : keysSorted nd.burning = true) :
    v ∈ (spread_scan g nd gt).1 ↔
      ∃ b tb, lookupKV nd.burning b = some tb ∧
        ∃ i, g.offAt b ≤ i ∧ i < g.offAt (b + 1) ∧ (g.edgeAt i).tgt = v ∧
          nd.is_undefended v = true ∧ tb + (g.edgeAt i).dist ≤ gt := by
  unfold spread_scan
  rw [spreadOuter_fst]
  constructor
  · rintro (h | ⟨kv, hkv, hrest⟩)
    · exact absurd h (List.not_mem_nil v)
    · exact ⟨kv.1, kv.2, (lookup_mem_iff hs).mpr hkv, hrest⟩
  · rintro ⟨b, tb, hl, hrest⟩
    exact Or.inr ⟨(b, tb), (lookup_mem_iff hs).mp hl, hrest⟩

theorem spread_scan_mem_undefended {g : Graph} {nd : NodeDataStorage} {gt v : Nat}
    (h : v ∈ (spread_scan g nd gt).1) : nd.is_undefended v = true := by
  unfold spread_scan at h
  rw [spreadOuter_fst] at h
  rcases h with h | ⟨kv, _, i, _, _, _, h4, _⟩
  · exact absurd h (List.not_mem_nil v)
  · exact h4

theorem spread_scan_active {g : Graph} {nd : NodeDataStorage} {gt : Nat} :
    (spread_scan g nd gt).2 = true ↔
      ∃ kv ∈ nd.burning, ∃ i, g.offAt kv.1 ≤ i ∧ i < g.offAt (kv.1 + 1) ∧
        nd.is_undefended (g.edgeAt i).tgt = true := by
  unfold spread_scan
  rw [spreadOuter_snd]
  constructor
  · rintro (h | h)
    · exact absurd h (Bool.false_ne_true)
    · exact h
  · exact Or.inr

theorem spread_fire_burning (g : Graph) (s : OSMFProblem) (v : Nat) :
    lookupKV (spread_fire g s).node_data.burning v =
      if v ∈ (spread_scan g s.node_data s.global_time).1 then some s.global_time
      else lookupKV s.node_data.burning v := by
  unfold spread_fire NodeDataStorage.mark_burning
  exact lookup_markList _ _ _ _

theorem spread_fire_defended (g : Graph) (s : OSMFProblem) :
    (spread_fire g s).node_data.defended = s.node_data.defended := rfl

theorem spread_fire_time (g : Graph) (s : OSMFProblem) :
    (spread_fire g s).global_time = s.global_time := rfl

theorem spread_fire_active (g : Graph) (s : OSMFProblem) :
    (spread_fire g s).is_active = (spread_scan g s.node_data s.global_time).2 := rfl

/- ----------------------------------------------------------------- -/
/- Concrete instances used by witnesses and scenario claims          -/
/- ----------------------------------------------------------------- -/

/-- The path graph 0 →(2) 1 →(3) 2 →(1) 3 of the concrete scenario. -/
def pathGraph : Graph :=
  { nodes := [], edges := [⟨0, 1, 2⟩, ⟨1, 2, 3⟩, ⟨2, 3, 1⟩], offsets := [0, 1, 2, 3, 3],
    num_nodes := 4, num_edges := 3 }

/-- A containment configuration whose strategy defends nothing. -/
def idleCfg : SimCfg := ⟨1, fun nd _ => nd⟩

/-- Initial state with fire root `{0}` ignited at tick 0. -/
def rootState : OSMFProblem :=
  { node_data := ⟨[(0, 0)], []⟩, global_time := 0, is_active := true }

/-- The modulus of the wrapping u64 arithmetic of a release build. -/
def U64_MOD : Nat := 2 ^ 64

/-- Faithful scan step for one out-edge of a burning node: the source
compares `self.global_time >= node_data.time + edge.dist as u64`, a u64
sum that wraps modulo `2^64` in a release build (a debug build aborts on
such an overflow), so the firing threshold is `(t_b + w) % 2^64`. -/
def burnScanEdgeWrap (g : Graph) (nd : NodeDataStorage) (gt tb : Nat)
    (acc : List Nat × Bool) (i : Nat) : List Nat × Bool :=
  let e := g.edgeAt i
  if nd.is_undefended e.tgt then
    (if gt ≥ (tb + e.dist) % U64_MOD then acc.1 ++ [e.tgt] else acc.1, true)
  else acc

/-- The scanning phase of `spread_fire` with the wrapping u64 threshold. -/
def spread_scanWrap (g : Graph) (nd : NodeDataStorage) (gt : Nat) : List Nat × Bool :=
  nd.burning.foldl
    (fun acc kv =>
      (natRange (g.offAt kv.1) (g.offAt (kv.1 + 1))).foldl
        (burnScanEdgeWrap g nd gt kv.2) acc)
    ([], false)

/-- `OSMFProblem::spread_fire` with the wrapping u64 threshold. -/
def spread_fireWrap (g : Graph) (s : OSMFProblem) : OSMFProblem :=
  let sc := spread_scanWrap g s.node_data s.global_time
  { s with is_active := sc.2,
           node_data := s.node_data.mark_burning sc.1 s.global_time }

/-- `OSMFProblem::exec_step` with the wrapping u64 threshold in its spread
phase. -/
def exec_stepWrap (cfg : SimCfg) (g : Graph) (s : OSMFProblem) : OSMFProblem :=
  spread_fireWrap g (contain_fire cfg (bumpTime s))

/-- Iterated `exec_stepWrap`. -/
def iterStepsWrap (cfg : SimCfg) (g : Graph) : Nat → OSMFProblem → OSMFProblem
  | 0, s => s
  | k + 1, s => iterStepsWrap cfg g k (exec_stepWrap cfg g s)

theorem burnScanWrap_fold_fst {g : Graph} {nd : NodeDataStorage} {gt tb : Nat} :
    ∀ (L : List Nat) (acc : List Nat × Bool) (v : Nat),
      (v ∈ (L.foldl (burnScanEdgeWrap g nd gt tb) acc).1 ↔
        v ∈ acc.1 ∨ ∃ i ∈ L, (g.edgeAt i).tgt = v ∧ nd.is_undefended v = true ∧
          (tb + (g.edgeAt i).dist) % U64_MOD ≤ gt) := by
  intro L
  induction L with
  | nil => intro acc v; simp
  | cons i0 L ih =>
    intro acc v
    simp only [List.foldl_cons]
    rw [ih]
    constructor
    · rintro (hm | ⟨i, hi, he⟩)
      · simp only [burnScanEdgeWrap] at hm
        split_ifs at hm with h1 h2
        · rcases List.mem_append.mp hm with h | h
          · exact Or.inl h
          · have hv : (g.edgeAt i0).tgt = v := (List.mem_singleton.mp h).symm
            right
            exact ⟨i0, List.mem_cons_self _ _, hv, by rw [← hv]; exact h1, h2⟩
        · exact Or.inl hm
        · exact Or.inl hm
      · exact Or.inr ⟨i, List.mem_cons_of_mem _ hi, he⟩
    · rintro (hm | ⟨i, hi, htgt, hund, htime⟩)
      · left
        simp only [burnScanEdgeWrap]
        split_ifs with h1 h2
        · exact List.mem_append.mpr (Or.inl hm)
        · exact hm
        · exact hm
      · rcases List.mem_cons.mp hi with h | h
        · subst h
          left
          simp [burnScanEdgeWrap, htgt, hund, htime]
        · exact Or.inr ⟨i, h, htgt, hund, htime⟩

theorem spreadOuterWrap_fst {g : Graph} {nd : NodeDataStorage} {gt : Nat} :
    ∀ (B : List (Nat × Nat)) (acc : List Nat × Bool) (v : Nat),
      (v ∈ (B.foldl (fun a kv =>
          (natRange (g.offAt kv.1) (g.offAt (kv.1 + 1))).foldl
            (burnScanEdgeWrap g nd gt kv.2) a) acc).1 ↔
        v ∈ acc.1 ∨ ∃ kv ∈ B, ∃ i, g.offAt kv.1 ≤ i ∧ i < g.offAt (kv.1 + 1) ∧
          (g.edgeAt i).tgt = v ∧ nd.is_undefended v = true ∧
          (kv.2 + (g.edgeAt i).dist) % U64_MOD ≤ gt) := by
  intro B
  induction B with
  | nil => intro acc v; simp
  | cons kv B ih =>
    intro acc v
    simp only [List.foldl_cons]
    rw [ih, burnScanWrap_fold_fst]
    constructor
    · rintro ((hm | ⟨i, hi, he⟩) | ⟨kv', hkv', hrest⟩)
      · exact Or.inl hm
      · exact Or.inr ⟨kv, List.mem_cons_self _ _, i, (mem_natRange.mp hi).1,
          (mem_natRange.mp hi).2, he.1, he.2.1, he.2.2⟩
      · exact Or.inr ⟨kv', List.mem_cons_of_mem _ hkv', hrest⟩
    · rintro (hm | ⟨kv', hkv', i, h1, h2, h3, h4, h5⟩)
      · exact Or.inl (Or.inl hm)
      · rcases List.mem_cons.mp hkv' with h | h
        · subst h
          exact Or.inl (Or.inr ⟨i, mem_natRange.mpr ⟨h1, h2⟩, h3, h4, h5⟩)
        · exact Or.inr ⟨kv', h, i, h1, h2, h3, h4, h5⟩

theorem mem_spread_scanWrap {g : Graph} {nd : NodeDataStorage} {gt v : Nat}
    (hs : keysSorted nd.burning = true) :
    v ∈ (spread_scanWrap g nd gt).1 ↔
      ∃ b tb, lookupKV nd.burning b = some tb ∧
        ∃ i, g.offAt b ≤ i ∧ i < g.offAt (b + 1) ∧ (g.edgeAt i).tgt = v ∧
          nd.is_undefended v = true ∧ (tb + (g.edgeAt i).dist) % U64_MOD ≤ gt := by
  unfold spread_scanWrap
  rw [spreadOuterWrap_fst]
  constructor
  · rintro (h | ⟨kv, hkv, hrest⟩)
    · exact absurd h (List.not_mem_nil v)
    · exact ⟨kv.1, kv.2, (lookup_mem_iff hs).mpr hkv, hrest⟩
  · rintro ⟨b, tb, hl, hrest⟩
    exact Or.inr ⟨(b, tb), (lookup_mem_iff hs).mp hl, hrest⟩

theorem spread_fireWrap_burning (g : Graph) (s : OSMFProblem) (v : Nat) :
    lookupKV (spread_fireWrap g s).node_data.burning v =
      if v ∈ (spread_scanWrap g s.node_data s.global_time).1 then some s.global_time
      else lookupKV s.node_data.burning v := by
  unfold spread_fireWrap NodeDataStorage.mark_burning
  exact lookup_markList _ _ _ _

/-- C1 (amended): on every reachable state (sorted burning snapshot),
`spread_fire` collects in its to-burn set exactly the nodes `v` reached by
an edge `(b, v, w)` out of a node burning since `t_b` with `v` undefended
at the start of the call and `global_time ≥ (t_b + w) % 2^64` — the u64 sum
of the source, which wraps on overflow in a release build (a debug build
aborts there); and afterwards every node of the to-burn set is recorded
burning at time `global_time` while all other burning records are
unchanged.  Whenever `t_b + w < 2^64` the threshold is `t_b + w` itself and
the original claimed condition is recovered. -/
theorem spread_fire_wrap_spec (g : Graph) (s : OSMFProblem)
    (hs : keysSorted s.node_data.burning = true) :
    (∀ v, v ∈ (spread_scanWrap g s.node_data s.global_time).1 ↔
        ∃ b tb, lookupKV s.node_data.burning b = some tb ∧
          ∃ i, g.offAt b ≤ i ∧ i < g.offAt (b + 1) ∧ (g.edgeAt i).tgt = v ∧
            s.node_data.is_undefended v = true ∧
            (tb + (g.edgeAt i).dist) % U64_MOD ≤ s.global_time) ∧
    (∀ v, lookupKV (spread_fireWrap g s).node_data.burning v =
        if v ∈ (spread_scanWrap g s.node_data s.global_time).1 then some s.global_time
        else lookupKV s.node_data.burning v) :=
  ⟨fun _ => mem_spread_scanWrap hs, fun v => spread_fireWrap_burning g s v⟩

theorem spread_fire_wrap_spec_witness :
    keysSorted rootState.node_data.burning = true ∧
    ((∀ v, v ∈ (spread_scanWrap pathGraph rootState.node_data rootState.global_time).1 ↔
        ∃ b tb, lookupKV rootState.node_data.burning b = some tb ∧
          ∃ i, pathGraph.offAt b ≤ i ∧ i < pathGraph.offAt (b + 1) ∧
            (pathGraph.edgeAt i).tgt = v ∧
            rootState.node_data.is_undefended v = true ∧
            (tb + (pathGraph.edgeAt i).dist) % U64_MOD ≤ rootState.global_time) ∧
    (∀ v, lookupKV (spread_fireWrap pathGraph rootState).node_data.burning v =
        if v ∈ (spread_scanWrap pathGraph rootState.node_data rootState.global_time).1
        then some rootState.global_time
        else lookupKV rootState.node_data.burning v)) :=
  ⟨by decide, spread_fire_wrap_spec pathGraph rootState (by decide)⟩

/-- A well-formed chain graph 0 →(1) 1 →(1) 2 →(usize::MAX − 1) 3 whose last
edge makes the u64 firing sum overflow once node 2 burns at time 2. -/
def wrapGraph : Graph :=
  { nodes := [], edges := [⟨0, 1, 1⟩, ⟨1, 2, 1⟩, ⟨2, 3, USIZE_MAX - 1⟩],
    offsets := [0, 1, 2, 3, 3], num_nodes := 4, num_edges := 3 }

/-- C1 (counterexample): starting from root `{0}` on `wrapGraph` with a
defend-nothing strategy, node 2 burns at time 2 after two ticks, and at
tick 3 the only edge into node 3 has `t_b + w = 2 + (usize::MAX − 1) = 2^64`,
so the claimed condition `global_time ≥ t_b + w` fails (`3 < 2^64`) and the
claim says node 3 is not added — yet the program computes the u64 sum, which
wraps to 0 in a release build, so `3 ≥ 0` holds and the faithful engine
marks node 3 burning at time 3 (a debug build aborts on the overflow); the
idealized engine, which satisfies the claimed characterization exactly,
leaves node 3 unburnt on the same run. -/
theorem spread_fire_overflow_counterexample :
    wrapGraph.WF ∧
    lookupKV (iterStepsWrap idleCfg wrapGraph 2 rootState).node_data.burning 2 = some 2 ∧
    (iterStepsWrap idleCfg wrapGraph 3 rootState).global_time = 3 ∧
    ¬ (2 + (USIZE_MAX - 1) ≤ 3) ∧
    (2 + (USIZE_MAX - 1)) % U64_MOD = 0 ∧
    lookupKV (iterStepsWrap idleCfg wrapGraph 3 rootState).node_data.burning 3 = some 3 ∧
    lookupKV (iterSteps idleCfg wrapGraph 3 rootState).node_data.burning 3 = none :=
  ⟨by decide, by decide, by decide, by decide, by decide, by decide, by decide⟩

/- ----------------------------------------------------------------- -/
/- Undefended-state helpers and terminal behaviour                   -/
/- ----------------------------------------------------------------- -/

theorem is_undefended_false_iff {nd : NodeDataStorage} {v : Nat} :
    nd.is_undefended v = false ↔
      ((lookupKV nd.burning v).isSome = true ∨ (lookupKV nd.defended v).isSome = true) := by
  unfold NodeDataStorage.is_undefended NodeDataStorage.is_burning NodeDataStorage.is_defended
  cases hb : (lookupKV nd.burning v).isSome <;>
    cases hd : (lookupKV nd.defended v).isSome <;> simp

theorem is_undefended_true_iff {nd : NodeDataStorage} {v : Nat} :
    nd.is_undefended v = true ↔
      ((lookupKV nd.burning v).isSome = false ∧ (lookupKV nd.defended v).isSome = false) := by
  unfold NodeDataStorage.is_undefended NodeDataStorage.is_burning NodeDataStorage.is_defended
  cases hb : (lookupKV nd.burning v).isSome <;>
    cases hd : (lookupKV nd.defended v).isSome <;> simp

/-- Terminal condition of the fire: no burning node has an undefended
out-neighbour. -/
def noBurnableNeighbor (g : Graph) (nd : NodeDataStorage) : Prop :=
  ∀ kv ∈ nd.burning, ∀ i ∈ natRange (g.offAt kv.1) (g.offAt (kv.1 + 1)),
    nd.is_undefended (g.edgeAt i).tgt = false

instance (g : Graph) (nd : NodeDataStorage) : Decidable (noBurnableNeighbor g nd) := by
  unfold noBurnableNeighbor; infer_instance

theorem spread_scan_of_noBurnable {g : Graph} {nd : NodeDataStorage} {gt : Nat}
    (h : noBurnableNeighbor g nd) : spread_scan g nd gt = ([], false) := by
  have h1 : (spread_scan g nd gt).1 = [] := by
    rw [List.eq_nil_iff_forall_not_mem]
    intro v hv
    unfold spread_scan at hv
    rw [spreadOuter_fst] at hv
    rcases hv with hv | ⟨kv, hkv, i, hi1, hi2, htgt, hund, _⟩
    · exact List.not_mem_nil v hv
    · have hf := h kv hkv i (mem_natRange.mpr ⟨hi1, hi2⟩)
      rw [htgt, hund] at hf
      exact Bool.noConfusion hf
  have h2 : (spread_scan g nd gt).2 = false := by
    by_contra hne
    have ht : (spread_scan g nd gt).2 = true := by
      cases hx : (spread_scan g nd gt).2
      · exact absurd hx hne
      · rfl
    rw [spread_scan_active] at ht
    rcases ht with ⟨kv, hkv, i, hi1, hi2, hund⟩
    have hf := h kv hkv i (mem_natRange.mpr ⟨hi1, hi2⟩)
    rw [hund] at hf
    exact Bool.noConfusion hf
  calc spread_scan g nd gt = ((spread_scan g nd gt).1, (spread_scan g nd gt).2) := rfl
    _ = ([], false) := by rw [h1, h2]

theorem spread_fire_of_noBurnable {g : Graph} {s : OSMFProblem}
    (h : noBurnableNeighbor g s.node_data) :
    spread_fire g s = { s with is_active := false } := by
  unfold spread_fire
  rw [spread_scan_of_noBurnable h]
  rfl

theorem noBurnable_exec {cfg : SimCfg} {g : Graph} {nd : NodeDataStorage} {t : Nat}
    (hg : GoodExec cfg) (h : noBurnableNeighbor g nd) :
    noBurnableNeighbor g (cfg.exec nd t) := by
  intro kv hkv i hi
  have hb : (cfg.exec nd t).burning = nd.burning := (hg nd t).1
  have hkv' : kv ∈ nd.burning := by rw [← hb]; exact hkv
  have hf := h kv hkv' i hi
  rcases is_undefended_false_iff.mp hf with hc | hc
  · exact is_undefended_false_iff.mpr (Or.inl (by rw [hb]; exact hc))
  · exact is_undefended_false_iff.mpr (Or.inr ((hg nd t).2 _ hc))

theorem noBurnable_contain {cfg : SimCfg} {g : Graph} {s : OSMFProblem}
    (hg : GoodExec cfg) (h : noBurnableNeighbor g s.node_data) :
    noBurnableNeighbor g (contain_fire cfg s).node_data := by
  unfold contain_fire
  split_ifs with hc
  · exact noBurnable_exec hg h
  · exact h

theorem exec_step_of_noBurnable {cfg : SimCfg} {g : Graph} {s : OSMFProblem}
    (hg : GoodExec cfg) (h : noBurnableNeighbor g s.node_data) :
    noBurnableNeighbor g (exec_step cfg g s).node_data ∧
    (exec_step cfg g s).is_active = false := by
  have h1 : noBurnableNeighbor g (contain_fire cfg (bumpTime s)).node_data :=
    noBurnable_contain hg (s := bumpTime s) h
  have h2 : exec_step cfg g s = { contain_fire cfg (bumpTime s) with is_active := false } := by
    unfold exec_step
    exact spread_fire_of_noBurnable h1
  rw [h2]
  exact ⟨h1, rfl⟩

/-- C5 (helper): once the terminal condition holds, forced iteration keeps it
and keeps the engine inactive. -/
theorem iter_of_noBurnable {cfg : SimCfg} {g : Graph} (hg : GoodExec cfg) :
    ∀ (k : Nat) (s : OSMFProblem), noBurnableNeighbor g s.node_data →
      noBurnableNeighbor g (iterSteps cfg g k s).node_data ∧
      (k ≥ 1 → (iterSteps cfg g k s).is_active = false) := by
  intro k
  induction k with
  | zero => intro s h; exact ⟨h, by omega⟩
  | succ n ih =>
    intro s h
    have hstep := exec_step_of_noBurnable (g := g) hg h
    rcases ih (exec_step cfg g s) hstep.1 with ⟨ha, hb⟩
    refine ⟨ha, fun _ => ?_⟩
    cases n with
    | zero => exact hstep.2
    | succ m => exact hb (by omega)

/-- C5: in a state where no burning node has an undefended out-neighbour, the
next `spread_fire` sets `is_active` to `false`, and `is_active` stays `false`
after every later simulation step (for any strategy respecting the `execute`
contract): the terminal state is never resurrected. -/
theorem fire_terminal_stays_inactive (cfg : SimCfg) (g : Graph) (s : OSMFProblem)
    (hg : GoodExec cfg) (h : noBurnableNeighbor g s.node_data) :
    (spread_fire g s).is_active = false ∧
    ∀ k, k ≥ 1 → (iterSteps cfg g k (spread_fire g s)).is_active = false := by
  have h1 : spread_fire g s = { s with is_active := false } := spread_fire_of_noBurnable h
  constructor
  · rw [h1]
  · intro k hk
    have hnb : noBurnableNeighbor g (spread_fire g s).node_data := by rw [h1]; exact h
    exact (iter_of_noBurnable hg k _ hnb).2 hk

/-- A terminal concrete state on the path graph: the only burning node's only
out-neighbour is defended. -/
def terminalState : OSMFProblem :=
  { node_data := ⟨[(0, 0)], [(1, 0)]⟩, global_time := 3, is_active := true }

theorem fire_terminal_stays_inactive_witness :
    GoodExec idleCfg ∧ noBurnableNeighbor pathGraph terminalState.node_data ∧
    ((spread_fire pathGraph terminalState).is_active = false ∧
     ∀ k, k ≥ 1 →
       (iterSteps idleCfg pathGraph k (spread_fire pathGraph terminalState)).is_active = false) :=
  ⟨fun nd t => ⟨rfl, fun v h => h⟩, by decide,
    fire_terminal_stays_inactive idleCfg pathGraph terminalState
      (fun nd t => ⟨rfl, fun v h => h⟩) (by decide)⟩

/- ----------------------------------------------------------------- -/
/- Permanence of protection                                          -/
/- ----------------------------------------------------------------- -/

/-- The primitive operations a simulation run is interleaved from. -/
inductive SimOp where
  | bump
  | contain
  | spread

/-- Apply one primitive simulation operation. -/
def applyOp (cfg : SimCfg) (g : Graph) : SimOp → OSMFProblem → OSMFProblem
  | .bump, s => bumpTime s
  | .contain, s => contain_fire cfg s
  | .spread, s => spread_fire g s

/-- Apply a sequence of primitive simulation operations. -/
def applyOps (cfg : SimCfg) (g : Graph) (ops : List SimOp) (s : OSMFProblem) : OSMFProblem :=
  ops.foldl (fun s op => applyOp cfg g op s) s

theorem applyOp_defended_burning {cfg : SimCfg} {g : Graph} (hg : GoodExec cfg)
    (op : SimOp) (s : OSMFProblem) (v : Nat)
    (hd : (lookupKV s.node_data.defended v).isSome = true) :
    (lookupKV (applyOp cfg g op s).node_data.defended v).isSome = true ∧
    lookupKV (applyOp cfg g op s).node_data.burning v = lookupKV s.node_data.burning v := by
  cases op with
  | bump => exact ⟨hd, rfl⟩
  | contain =>
    simp only [applyOp]
    unfold contain_fire
    split_ifs with hc
    · exact ⟨(hg s.node_data s.global_time).2 v hd,
        by rw [(hg s.node_data s.global_time).1]⟩
    · exact ⟨hd, rfl⟩
  | spread =>
    refine ⟨by rw [show (applyOp cfg g SimOp.spread s) = spread_fire g s from rfl,
      spread_fire_defended]; exact hd, ?_⟩
    rw [show (applyOp cfg g SimOp.spread s) = spread_fire g s from rfl, spread_fire_burning]
    split_ifs with hmem
    · have ht := spread_scan_mem_undefended hmem
      have hf := is_undefended_false_iff.mpr (Or.inr hd)
      rw [hf] at ht
      exact absurd ht Bool.false_ne_true
    · rfl

/-- C6: a node present in the defended map is never inserted into the burning
map by any later sequence of simulation operations (in particular by any
sequence of `spread_fire` calls): its burning-map entry is exactly what it
was, and its protection persists. -/
theorem defended_never_burns (cfg : SimCfg) (g : Graph) (ops : List SimOp)
    (s : OSMFProblem) (v : Nat) (hg : GoodExec cfg)
    (hd : (lookupKV s.node_data.defended v).isSome = true) :
    lookupKV (applyOps cfg g ops s).node_data.burning v = lookupKV s.node_data.burning v ∧
    (lookupKV (applyOps cfg g ops s).node_data.defended v).isSome = true := by
  induction ops generalizing s with
  | nil => exact ⟨rfl, hd⟩
  | cons op ops ih =>
    have h1 := applyOp_defended_burning (g := g) hg op s v hd
    rcases ih (applyOp cfg g op s) h1.1 with ⟨hb, hdd⟩
    exact ⟨by rw [show applyOps cfg g (op :: ops) s = applyOps cfg g ops (applyOp cfg g op s)
      from rfl, hb, h1.2], hdd⟩

theorem defended_never_burns_witness :
    GoodExec idleCfg ∧
    (lookupKV terminalState.node_data.defended 1).isSome = true ∧
    (lookupKV (applyOps idleCfg pathGraph
        [SimOp.spread, SimOp.bump, SimOp.contain, SimOp.spread, SimOp.bump, SimOp.spread]
        terminalState).node_data.burning 1 =
      lookupKV terminalState.node_data.burning 1 ∧
    (lookupKV (applyOps idleCfg pathGraph
        [SimOp.spread, SimOp.bump, SimOp.contain, SimOp.spread, SimOp.bump, SimOp.spread]
        terminalState).node_data.defended 1).isSome = true) :=
  ⟨fun nd t => ⟨rfl, fun v h => h⟩, by decide,
    defended_never_burns idleCfg pathGraph _ terminalState 1
      (fun nd t => ⟨rfl, fun v h => h⟩) (by decide)⟩

/- ----------------------------------------------------------------- -/
/- Step ordering                                                     -/
/- ----------------------------------------------------------------- -/

/-- C7: `exec_step` first increments `global_time`, then runs the strategy's
`execute` exactly when the new `global_time` is a multiple of
`strategy_every`, and evaluates fire spread only afterwards; consequently a
node defended in the containment phase of a tick cannot be marked burning by
the spread phase of the same tick. -/
theorem exec_step_order (cfg : SimCfg) (g : Graph) (s : OSMFProblem) :
    exec_step cfg g s = spread_fire g (contain_fire cfg (bumpTime s)) ∧
    (bumpTime s).global_time = s.global_time + 1 ∧
    ((bumpTime s).global_time % cfg.strategy_every = 0 →
      contain_fire cfg (bumpTime s) =
        { bumpTime s with
          node_data := cfg.exec (bumpTime s).node_data (bumpTime s).global_time }) ∧
    ((bumpTime s).global_time % cfg.strategy_every ≠ 0 →
      contain_fire cfg (bumpTime s) = bumpTime s) ∧
    (∀ v, (lookupKV (contain_fire cfg (bumpTime s)).node_data.defended v).isSome = true →
      lookupKV (exec_step cfg g s).node_data.burning v =
        lookupKV (contain_fire cfg (bumpTime s)).node_data.burning v) := by
  refine ⟨rfl, rfl, ?_, ?_, ?_⟩
  · intro h
    unfold contain_fire
    rw [if_pos h]
  · intro h
    unfold contain_fire
    rw [if_neg h]
  · intro v hd
    rw [show exec_step cfg g s = spread_fire g (contain_fire cfg (bumpTime s)) from rfl,
      spread_fire_burning]
    split_ifs with hmem
    · have ht := spread_scan_mem_undefended hmem
      have hf := is_undefended_false_iff.mpr (Or.inr hd)
      rw [hf] at ht
      exact absurd ht Bool.false_ne_true
    · rfl

theorem exec_step_order_witness :
    exec_step idleCfg pathGraph rootState =
      spread_fire pathGraph (contain_fire idleCfg (bumpTime rootState)) ∧
    (bumpTime rootState).global_time = rootState.global_time + 1 ∧
    ((bumpTime rootState).global_time % idleCfg.strategy_every = 0 →
      contain_fire idleCfg (bumpTime rootState) =
        { bumpTime rootState with
          node_data := idleCfg.exec (bumpTime rootState).node_data
            (bumpTime rootState).global_time }) ∧
    ((bumpTime rootState).global_time % idleCfg.strategy_every ≠ 0 →
      contain_fire idleCfg (bumpTime rootState) = bumpTime rootState) ∧
    (∀ v, (lookupKV (contain_fire idleCfg (bumpTime rootState)).node_data.defended v).isSome
        = true →
      lookupKV (exec_step idleCfg pathGraph rootState).node_data.burning v =
        lookupKV (contain_fire idleCfg (bumpTime rootState)).node_data.burning v) :=
  exec_step_order idleCfg pathGraph rootState

/- ----------------------------------------------------------------- -/
/- Concrete scenario and construction evaluations                    -/
/- ----------------------------------------------------------------- -/

/-- C8: on the path graph 0 →(2) 1 →(3) 2 →(1) 3 with fire root `{0}` and a
strategy that defends nothing, the recorded timeline is: node 0 burning at
time 0; node 1 undefended through tick 1 and burning at time 2; node 2
undefended through tick 4 and burning at time 5; node 3 burning at time 6;
`is_active` is still true at tick 6 and becomes false after it, so
`simulate` stops at tick 7 with exactly nodes 0–3 burned. -/
theorem path_graph_timeline :
    pathGraph.WF = True ∧
    lookupKV rootState.node_data.burning 0 = some 0 ∧
    (iterSteps idleCfg pathGraph 1 rootState).node_data.is_undefended 1 = true ∧
    lookupKV (iterSteps idleCfg pathGraph 2 rootState).node_data.burning 1 = some 2 ∧
    (iterSteps idleCfg pathGraph 4 rootState).node_data.is_undefended 2 = true ∧
    lookupKV (iterSteps idleCfg pathGraph 5 rootState).node_data.burning 2 = some 5 ∧
    lookupKV (iterSteps idleCfg pathGraph 6 rootState).node_data.burning 3 = some 6 ∧
    (iterSteps idleCfg pathGraph 6 rootState).is_active = true ∧
    (iterSteps idleCfg pathGraph 7 rootState).is_active = false ∧
    (simulateFuel idleCfg pathGraph 100 rootState).is_active = false ∧
    (simulateFuel idleCfg pathGraph 100 rootState).global_time = 7 ∧
    (simulateFuel idleCfg pathGraph 100 rootState).node_data.burning =
      [(0, 0), (1, 2), (2, 5), (3, 6)] := by
  refine ⟨?_, ?_⟩ <;> first
    | (simp only [eq_iff_iff, iff_true]; decide)
    | decide

/-- A two-node graph with no edges, used to exercise root generation. -/
def twoNodeGraph : Graph :=
  { nodes := [], edges := [], offsets := [0, 0, 0], num_nodes := 2, num_edges := 0 }

/-- C3 (failing evaluation): with `num_nodes = 2`, `num_roots = 2` and the
rng draw sequence `0, 0`, problem construction succeeds but marks only one
distinct node burning — the root loop tests `is_undefended` against the
still-empty storage and `mark_burning` runs only after the loop, so repeated
draws collapse in the burning map, contradicting both the spec and the
repository's own test `assert_eq!(problem.node_data.burning.len(), num_roots)`. -/
theorem gen_fire_roots_duplicate_eval :
    (OSMFProblem.new_checked twoNodeGraph 2 [0, 0]).isSome = true ∧
    (OSMFProblem.new_checked twoNodeGraph 2 [0, 0]).map
      (fun p => p.node_data.burning) = some [(0, 0)] ∧
    (OSMFProblem.new_checked twoNodeGraph 2 [0, 0]).map
      (fun p => p.node_data.burning.length) = some 1 ∧
    (1 : Nat) ≠ 2 := by
  decide

/-- Input lines for a 3-node, 2-edge graph whose last node has no outgoing
edges (edges grouped by ascending `src`, all sources valid node ids). -/
def badLines : List Line :=
  ["# comment", "header", "3", "2",
   "0 100 1.5 2.5", "1 101 1.5 2.5", "2 102 1.5 2.5",
   "0 1 1", "1 2 1"].map String.toList

/-- C2 (failing evaluation): parsing succeeds on `badLines` yet produces
`offsets = [0, 1, 0, 2]` — the loop never fills the trailing entry for node 2
(left at its initial 0) before `offsets[num_nodes] = num_edges` is written, so
`offsets` is not non-decreasing (`offsets[1] = 1 > 0 = offsets[2]`) and the
slice `edges[offsets[2]..offsets[3]) = edges[0..2)` for node 2 contains edges
with `src = 0` and `src = 1`, violating the claimed CSR invariant. -/
theorem parse_trailing_gap_eval :
    (parse_graph badLines).map (fun g => g.offsets) = some [0, 1, 0, 2] ∧
    (parse_graph badLines).map (fun g => g.num_nodes) = some 3 ∧
    (parse_graph badLines).map (fun g => g.num_edges) = some 2 ∧
    (parse_graph badLines).map (fun g => g.edges.map (fun e => e.src)) = some [0, 1] ∧
    (parse_graph badLines).map (fun g => decide (g.offAt 1 ≤ g.offAt 2)) = some false ∧
    (parse_graph badLines).map
      (fun g => (g.offAt 2, g.offAt 3, (g.edgeAt 0).src, (g.edgeAt 1).src)) =
      some (0, 2, 0, 1) := by
  decide

/- ----------------------------------------------------------------- -/
/- Error handling: abort conditions and step totality                 -/
/- ----------------------------------------------------------------- -/

theorem get?_eq_getD {α : Type} {l : List α} {i : Nat} (d : α) (h : i < l.length) :
    l.get? i = some (l.getD i d) := by
  induction l generalizing i with
  | nil => simp at h
  | cons x xs ih =>
    cases i with
    | zero => rfl
    | succ n =>
      simp only [List.get?_cons_succ, List.getD_cons_succ]
      exact ih (by simpa using h)

theorem foldlM_option {α β : Type} (f : β → α → Option β) (f2 : β → α → β) :
    ∀ (L : List α), (∀ a ∈ L, ∀ b, f b a = some (f2 b a)) →
      ∀ b, L.foldlM f b = some (L.foldl f2 b) := by
  intro L
  induction L with
  | nil => intro _ b; rfl
  | cons a L ih =>
    intro h b
    have h1 : f b a = some (f2 b a) := h a (List.mem_cons_self _ _) b
    rw [show (a :: L).foldlM f b = f b a >>= fun b' => L.foldlM f b' from rfl, h1]
    exact ih (fun x hx b' => h x (List.mem_cons_of_mem _ hx) b') (f2 b a)

theorem offAt_mono {g : Graph} (hwf : g.WF) :
    ∀ j, j ≤ g.num_nodes → ∀ i, i ≤ j → g.offAt i ≤ g.offAt j := by
  intro j
  induction j with
  | zero =>
    intro _ i hi
    have h0 : i = 0 := by omega
    rw [h0]
  | succ m ih =>
    intro hj i hi
    by_cases h : i = m + 1
    · rw [h]
    · have h2 := ih (by omega) i (by omega)
      have h3 := hwf.2.1 m (by omega)
      omega

theorem offAt_le_len {g : Graph} (hwf : g.WF) {v : Nat} (hv : v ≤ g.num_nodes) :
    g.offAt v ≤ g.edges.length := by
  have h1 := offAt_mono hwf g.num_nodes (le_refl _) v hv
  have h2 := hwf.2.2.1
  omega

theorem spread_scan_checked_eq {g : Graph} {nd : NodeDataStorage} {gt : Nat}
    (hwf : g.WF) (hkeys : ∀ kv ∈ nd.burning, kv.1 < g.num_nodes) :
    spread_scan_checked g nd gt = some (spread_scan g nd gt) := by
  unfold spread_scan_checked spread_scan
  apply foldlM_option
  intro kv hkv acc
  have hk : kv.1 < g.num_nodes := hkeys kv hkv
  have ho1 : g.offsets.get? kv.1 = some (g.offAt kv.1) :=
    get?_eq_getD 0 (by rw [hwf.1]; omega)
  have ho2 : g.offsets.get? (kv.1 + 1) = some (g.offAt (kv.1 + 1)) :=
    get?_eq_getD 0 (by rw [hwf.1]; omega)
  rw [ho1, ho2]
  apply foldlM_option
  intro i hi acc2
  have hi2 : i < g.offAt (kv.1 + 1) := (mem_natRange.mp hi).2
  have hle : g.offAt (kv.1 + 1) ≤ g.edges.length := offAt_le_len hwf (by omega)
  have he : g.edges.get? i = some (g.edgeAt i) := get?_eq_getD eDefault (by omega)
  rw [he]
  simp [burnScanEdge]

theorem contain_burning_eq {cfg : SimCfg} {s : OSMFProblem} (hg : GoodExec cfg) :
    (contain_fire cfg s).node_data.burning = s.node_data.burning := by
  unfold contain_fire
  split_ifs with hc
  · exact (hg s.node_data s.global_time).1
  · rfl

theorem exec_step_checked_eq {cfg : SimCfg} {g : Graph} {s : OSMFProblem}
    (hg : GoodExec cfg) (hwf : g.WF) (hinv : SimInv g s)
    (hse : cfg.strategy_every ≠ 0) :
    exec_step_checked cfg g s = some (exec_step cfg g s) := by
  unfold exec_step_checked
  rw [if_neg hse]
  have hb : (contain_fire cfg (bumpTime s)).node_data.burning = s.node_data.burning :=
    contain_burning_eq hg
  have hkeys : ∀ kv ∈ (contain_fire cfg (bumpTime s)).node_data.burning,
      kv.1 < g.num_nodes := by
    rw [hb]
    intro kv hkv
    exact (hinv.1 kv hkv).1
  simp only [spread_scan_checked_eq hwf hkeys]
  rfl

theorem genRootsLoop_isSome (nr : Nat) (nd : NodeDataStorage)
    (hund : ∀ d, nd.is_undefended d = true) :
    ∀ (draws roots : List Nat), nr ≤ roots.length + draws.length →
      (genRootsLoop nr nd roots draws).isSome = true := by
  intro draws
  induction draws with
  | nil =>
    intro roots hlen
    unfold genRootsLoop
    rw [if_neg (by simp at hlen; omega)]
    rfl
  | cons d rest ih =>
    intro roots hlen
    unfold genRootsLoop
    by_cases h : roots.length < nr
    · rw [if_pos h, if_pos (hund d)]
      apply ih
      simp only [List.length_append, List.length_cons, List.length_nil]
      simp only [List.length_cons] at hlen
      omega
    · rw [if_neg h]
      rfl

/-- C9: the only fatal aborts are at construction time — `OSMFProblem::new`
panics exactly when `num_roots > num_nodes` (and succeeds whenever the rng
supplies enough draws otherwise), graph loading aborts on malformed or
truncated input (concrete malformed inputs evaluated below), and under a
well-formed graph, reachable state, contract-respecting strategy and a
positive `strategy_every`, the bounds- and totality-checked simulation step
never fails and agrees with the unchecked one. -/
theorem fatal_cases_spec (g : Graph) (nr : Nat) (draws : List Nat) (cfg : SimCfg)
    (s : OSMFProblem) :
    (nr > g.num_nodes → OSMFProblem.new_checked g nr draws = none) ∧
    (nr ≤ g.num_nodes → nr ≤ draws.length →
      (OSMFProblem.new_checked g nr draws).isSome = true) ∧
    (GoodExec cfg → g.WF → SimInv g s → cfg.strategy_every ≠ 0 →
      exec_step_checked cfg g s = some (exec_step cfg g s)) ∧
    from_file [] = none ∧
    from_file (["h", "x"].map String.toList) = none ∧
    from_file (["h", "1"].map String.toList) = none ∧
    from_file (["h", "1", "0", "0 0 abc 2.0"].map String.toList) = none ∧
    from_file (["h", "2", "1", "0 0 1.0 2.0"].map String.toList) = none := by
  refine ⟨?_, ?_, ?_, by decide, by decide, by decide, by decide, by decide⟩
  · intro h
    unfold OSMFProblem.new_checked
    rw [if_pos h]
  · intro h1 h2
    unfold OSMFProblem.new_checked
    rw [if_neg (by omega)]
    have h3 := genRootsLoop_isSome nr ⟨[], []⟩ (fun d => rfl) draws []
      (by simpa using h2)
    obtain ⟨roots, hr⟩ := Option.isSome_iff_exists.mp h3
    unfold gen_fire_roots
    rw [show genRootsLoop nr
        ({ node_data := ⟨[], []⟩, global_time := 0, is_active := true } :
          OSMFProblem).node_data [] draws = some roots from hr]
    rfl
  · intro hg hwf hinv hse
    exact exec_step_checked_eq hg hwf hinv hse

theorem fatal_cases_spec_witness :
    (5 > pathGraph.num_nodes → OSMFProblem.new_checked pathGraph 5 [0, 1, 2, 3, 0] = none) ∧
    (2 ≤ pathGraph.num_nodes → 2 ≤ ([0, 1] : List Nat).length →
      (OSMFProblem.new_checked pathGraph 2 [0, 1]).isSome = true) ∧
    (GoodExec idleCfg → pathGraph.WF → SimInv pathGraph rootState →
      idleCfg.strategy_every ≠ 0 →
      exec_step_checked idleCfg pathGraph rootState =
        some (exec_step idleCfg pathGraph rootState)) ∧
    from_file [] = none ∧
    from_file (["h", "x"].map String.toList) = none ∧
    from_file (["h", "1"].map String.toList) = none ∧
    from_file (["h", "1", "0", "0 0 abc 2.0"].map String.toList) = none ∧
    from_file (["h", "2", "1", "0 0 1.0 2.0"].map String.toList) = none ∧
    OSMFProblem.new_checked pathGraph 5 [0, 1, 2, 3, 0] = none ∧
    (OSMFProblem.new_checked pathGraph 2 [0, 1]).isSome = true ∧
    exec_step_checked idleCfg pathGraph rootState =
      some (exec_step idleCfg pathGraph rootState) := by
  have h := fatal_cases_spec pathGraph 5 [0, 1, 2, 3, 0] idleCfg rootState
  have h2 := fatal_cases_spec pathGraph 2 [0, 1] idleCfg rootState
  refine ⟨h.1, h2.2.1, h2.2.2.1, h.2.2.2.1, h.2.2.2.2.1, h.2.2.2.2.2.1,
    h.2.2.2.2.2.2.1, h.2.2.2.2.2.2.2, h.1 (by decide), h2.2.1 (by decide) (by decide),
    h2.2.2.1 (fun nd t => ⟨rfl, fun v hv => hv⟩) (by decide) (by decide) (by decide)⟩

/- ----------------------------------------------------------------- -/
/- Termination of the simulation loop                                -/
/- ----------------------------------------------------------------- -/

theorem getD_mem {α : Type} {l : List α} {i : Nat} {d : α} (h : i < l.length) :
    l.getD i d ∈ l := by
  induction l generalizing i with
  | nil => simp at h
  | cons x xs ih =>
    cases i with
    | zero => exact List.mem_cons_self _ _
    | succ n =>
      simp only [List.getD_cons_succ]
      exact List.mem_cons_of_mem _ (ih (by simpa using h))

theorem countP_le_of_imp {α : Type} {L : List α} {p q : α → Bool}
    (h : ∀ v ∈ L, q v = true → p v = true) : L.countP q ≤ L.countP p := by
  induction L with
  | nil => simp [List.countP_nil]
  | cons a L ih =>
    rw [List.countP_cons, List.countP_cons]
    have hih := ih (fun v hv => h v (List.mem_cons_of_mem _ hv))
    by_cases hq : q a = true
    · rw [hq, h a (List.mem_cons_self _ _) hq]
      simp
      omega
    · have hqf : q a = false := by
        cases hqa : q a
        · rfl
        · exact absurd hqa hq
      rw [hqf]
      by_cases hp : p a = true
      · rw [hp]; simp; omega
      · have hpf : p a = false := by
          cases hpa : p a
          · rfl
          · exact absurd hpa hp
        rw [hpf]; simp; omega

theorem countP_lt_of_witness {α : Type} {L : List α} {p q : α → Bool}
    (h : ∀ v ∈ L, q v = true → p v = true) {x : α} (hx : x ∈ L)
    (hqx : q x = false) (hpx : p x = true) : L.countP q < L.countP p := by
  induction L with
  | nil => exact absurd hx (List.not_mem_nil x)
  | cons a L ih =>
    rw [List.countP_cons, List.countP_cons]
    rcases List.mem_cons.mp hx with hxa | hxa
    · rw [← hxa, hqx, hpx]
      have := countP_le_of_imp (L := L) (fun v hv => h v (List.mem_cons_of_mem _ hv))
      simp
      omega
    · have hih := ih (fun v hv => h v (List.mem_cons_of_mem _ hv)) hxa
      by_cases hq : q a = true
      · rw [hq, h a (List.mem_cons_self _ _) hq]
        simp
        omega
      · have hqf : q a = false := by
          cases hqa : q a
          · rfl
          · exact absurd hqa hq
        rw [hqf]
        by_cases hp : p a = true
        · rw [hp]; simp; omega
        · have hpf : p a = false := by
            cases hpa : p a
            · rfl
            · exact absurd hpa hp
          rw [hpf]; simp; omega

/-- Number of undefended (hence still burnable) valid node ids. -/
def undefCount (g : Graph) (nd : NodeDataStorage) : Nat :=
  (List.range g.num_nodes).countP (fun v => nd.is_undefended v)

theorem contain_notUndef {cfg : SimCfg} {s : OSMFProblem} {v : Nat} (hg : GoodExec cfg)
    (h : s.node_data.is_undefended v = false) :
    (contain_fire cfg s).node_data.is_undefended v = false := by
  rcases is_undefended_false_iff.mp h with hc | hc
  · exact is_undefended_false_iff.mpr (Or.inl (by rw [contain_burning_eq hg]; exact hc))
  · refine is_undefended_false_iff.mpr (Or.inr ?_)
    unfold contain_fire
    split_ifs with ht
    · exact (hg s.node_data s.global_time).2 v hc
    · exact hc

theorem spread_notUndef {g : Graph} {s : OSMFProblem} {v : Nat}
    (h : s.node_data.is_undefended v = false) :
    (spread_fire g s).node_data.is_undefended v = false := by
  rcases is_undefended_false_iff.mp h with hc | hc
  · refine is_undefended_false_iff.mpr (Or.inl ?_)
    rw [spread_fire_burning]
    split_ifs with hm
    · rfl
    · exact hc
  · exact is_undefended_false_iff.mpr (Or.inr (by rw [spread_fire_defended]; exact hc))

theorem step_notUndef {cfg : SimCfg} {g : Graph} {s : OSMFProblem} {v : Nat}
    (hg : GoodExec cfg) (h : s.node_data.is_undefended v = false) :
    (exec_step cfg g s).node_data.is_undefended v = false :=
  spread_notUndef (contain_notUndef (s := bumpTime s) hg h)

theorem iter_notUndef {cfg : SimCfg} {g : Graph} (hg : GoodExec cfg) :
    ∀ (k : Nat) (s : OSMFProblem) (v : Nat), s.node_data.is_undefended v = false →
      (iterSteps cfg g k s).node_data.is_undefended v = false := by
  intro k
  induction k with
  | zero => intro s v h; exact h
  | succ n ih => intro s v h; exact ih (exec_step cfg g s) v (step_notUndef hg h)

theorem step_burning_entry {cfg : SimCfg} {g : Graph} {s : OSMFProblem} {v τ : Nat}
    (hg : GoodExec cfg) (h : lookupKV s.node_data.burning v = some τ) :
    lookupKV (exec_step cfg g s).node_data.burning v = some τ := by
  have hc : lookupKV (contain_fire cfg (bumpTime s)).node_data.burning v = some τ := by
    rw [contain_burning_eq hg]; exact h
  rw [show exec_step cfg g s = spread_fire g (contain_fire cfg (bumpTime s)) from rfl,
    spread_fire_burning]
  split_ifs with hm
  · have hu := spread_scan_mem_undefended hm
    have hf : (contain_fire cfg (bumpTime s)).node_data.is_undefended v = false :=
      is_undefended_false_iff.mpr (Or.inl (by rw [hc]; rfl))
    rw [hf] at hu
    exact absurd hu Bool.false_ne_true
  · exact hc

theorem iter_burning_entry {cfg : SimCfg} {g : Graph} (hg : GoodExec cfg) :
    ∀ (k : Nat) (s : OSMFProblem) (v τ : Nat),
      lookupKV s.node_data.burning v = some τ →
      lookupKV (iterSteps cfg g k s).node_data.burning v = some τ := by
  intro k
  induction k with
  | zero => intro s v τ h; exact h
  | succ n ih => intro s v τ h; exact ih (exec_step cfg g s) v τ (step_burning_entry hg h)

theorem scan_fst_lt {g : Graph} {nd : NodeDataStorage} {gt : Nat} (hwf : g.WF)
    (hkeys : ∀ kv ∈ nd.burning, kv.1 < g.num_nodes) :
    ∀ v ∈ (spread_scan g nd gt).1, v < g.num_nodes := by
  intro v hv
  unfold spread_scan at hv
  rw [spreadOuter_fst] at hv
  rcases hv with hv | ⟨kv, hkv, i, h1, h2, h3, _, _⟩
  · exact absurd hv (List.not_mem_nil v)
  · have hk := hkeys kv hkv
    have hle : g.offAt (kv.1 + 1) ≤ g.edges.length := offAt_le_len hwf (by omega)
    have hmem : g.edgeAt i ∈ g.edges := getD_mem (by omega)
    rw [← h3]
    exact hwf.2.2.2 _ hmem

theorem contain_fire_time (cfg : SimCfg) (s : OSMFProblem) :
    (contain_fire cfg s).global_time = s.global_time := by
  unfold contain_fire
  split_ifs <;> rfl

theorem exec_step_time (cfg : SimCfg) (g : Graph) (s : OSMFProblem) :
    (exec_step cfg g s).global_time = s.global_time + 1 := by
  rw [show exec_step cfg g s = spread_fire g (contain_fire cfg (bumpTime s)) from rfl,
    spread_fire_time, contain_fire_time]
  rfl

theorem simInv_step {cfg : SimCfg} {g : Graph} {s : OSMFProblem}
    (hg : GoodExec cfg) (hwf : g.WF) (hinv : SimInv g s) :
    SimInv g (exec_step cfg g s) := by
  have hbc : (contain_fire cfg (bumpTime s)).node_data.burning = s.node_data.burning :=
    contain_burning_eq hg
  have hshape : (exec_step cfg g s).node_data.burning =
      (spread_scan g (contain_fire cfg (bumpTime s)).node_data
        (contain_fire cfg (bumpTime s)).global_time).1.foldl
        (fun m k => insertKV m k (contain_fire cfg (bumpTime s)).global_time)
        (contain_fire cfg (bumpTime s)).node_data.burning := rfl
  constructor
  · intro kv hkv
    rw [hshape] at hkv
    rcases mem_markList hkv with ⟨hks, hkt⟩ | hold
    · constructor
      · refine scan_fst_lt hwf ?_ kv.1 hks
        rw [hbc]
        intro kv' hkv'
        exact (hinv.1 kv' hkv').1
      · have ht : (contain_fire cfg (bumpTime s)).global_time = s.global_time + 1 := by
          rw [contain_fire_time]; rfl
        rw [hkt, ht, exec_step_time]
    · rw [hbc] at hold
      rcases hinv.1 kv hold with ⟨h1, h2⟩
      rw [exec_step_time]
      exact ⟨h1, by omega⟩
  · rw [hshape, hbc]
    exact keysSorted_markList _ _ hinv.2

theorem iter_simInv {cfg : SimCfg} {g : Graph} (hg : GoodExec cfg) (hwf : g.WF) :
    ∀ (k : Nat) (s : OSMFProblem), SimInv g s → SimInv g (iterSteps cfg g k s) := by
  intro k
  induction k with
  | zero => intro s h; exact h
  | succ n ih => intro s h; exact ih (exec_step cfg g s) (simInv_step hg hwf h)

theorem iterSteps_add (cfg : SimCfg) (g : Graph) :
    ∀ (a b : Nat) (s : OSMFProblem),
      iterSteps cfg g (a + b) s = iterSteps cfg g b (iterSteps cfg g a s) := by
  intro a
  induction a with
  | zero => intro b s; rw [Nat.zero_add]; rfl
  | succ n ih =>
    intro b s
    rw [show n + 1 + b = (n + b) + 1 from by omega]
    rw [show iterSteps cfg g ((n + b) + 1) s = iterSteps cfg g (n + b) (exec_step cfg g s)
      from rfl]
    rw [ih b (exec_step cfg g s)]
    rfl

theorem countP_pos_of_mem {α : Type} {L : List α} {p : α → Bool} {x : α}
    (hx : x ∈ L) (hp : p x = true) : 0 < L.countP p := by
  induction L with
  | nil => exact absurd hx (List.not_mem_nil x)
  | cons a L ih =>
    rw [List.countP_cons]
    rcases List.mem_cons.mp hx with h | h
    · rw [← h, hp]
      simp
    · have := ih h
      omega

theorem burn_deadline {cfg : SimCfg} {g : Graph} (hg : GoodExec cfg) (hwf : g.WF)
    {b tb i : Nat} (hb1 : g.offAt b ≤ i) (hb2 : i < g.offAt (b + 1)) :
    ∀ (j : Nat) (s' : OSMFProblem), SimInv g s' →
      lookupKV s'.node_data.burning b = some tb →
      tb + (g.edgeAt i).dist ≤ s'.global_time + j → 1 ≤ j →
      (iterSteps cfg g j s').node_data.is_undefended ((g.edgeAt i).tgt) = false := by
  intro j
  induction j with
  | zero =>
    intro s' _ _ _ hj
    omega
  | succ jj ih =>
    intro s' hinv hlb htime hj
    cases Nat.eq_zero_or_pos jj with
    | inl h0 =>
      subst h0
      have hbc : (contain_fire cfg (bumpTime s')).node_data.burning =
          s'.node_data.burning := contain_burning_eq hg
      have hct : (contain_fire cfg (bumpTime s')).global_time = s'.global_time + 1 := by
        rw [contain_fire_time]; rfl
      have hgoal : (exec_step cfg g s').node_data.is_undefended ((g.edgeAt i).tgt)
          = false := by
        cases hu : (contain_fire cfg (bumpTime s')).node_data.is_undefended
            ((g.edgeAt i).tgt) with
        | false => exact spread_notUndef (s := contain_fire cfg (bumpTime s')) hu
        | true =>
          have hs : keysSorted (contain_fire cfg (bumpTime s')).node_data.burning
              = true := by
            rw [hbc]; exact hinv.2
          have hmem : (g.edgeAt i).tgt ∈
              (spread_scan g (contain_fire cfg (bumpTime s')).node_data
                (contain_fire cfg (bumpTime s')).global_time).1 :=
            (mem_spread_scan hs).mpr ⟨b, tb, by rw [hbc]; exact hlb, i, hb1, hb2, rfl, hu,
              by rw [hct]; omega⟩
          refine is_undefended_false_iff.mpr (Or.inl ?_)
          rw [show exec_step cfg g s' = spread_fire g (contain_fire cfg (bumpTime s'))
            from rfl, spread_fire_burning, if_pos hmem]
          rfl
      exact hgoal
    | inr hpos =>
      have hstep := simInv_step (g := g) hg hwf hinv
      have hlb' := step_burning_entry (g := g) hg hlb
      have hres := ih (exec_step cfg g s') hstep hlb'
        (by rw [exec_step_time]; omega) (by omega)
      exact hres

theorem active_step_witness {cfg : SimCfg} {g : Graph} {s : OSMFProblem}
    (hg : GoodExec cfg) (hwf : g.WF) (hinv : SimInv g s)
    (ha : (exec_step cfg g s).is_active = true) :
    ∃ b tb i, lookupKV (exec_step cfg g s).node_data.burning b = some tb ∧
      tb ≤ (exec_step cfg g s).global_time ∧ b < g.num_nodes ∧
      g.offAt b ≤ i ∧ i < g.offAt (b + 1) ∧ (g.edgeAt i).tgt < g.num_nodes ∧
      (contain_fire cfg (bumpTime s)).node_data.is_undefended ((g.edgeAt i).tgt) = true := by
  have hbc : (contain_fire cfg (bumpTime s)).node_data.burning = s.node_data.burning :=
    contain_burning_eq hg
  have hact : (spread_scan g (contain_fire cfg (bumpTime s)).node_data
      (contain_fire cfg (bumpTime s)).global_time).2 = true := ha
  rw [spread_scan_active] at hact
  obtain ⟨kv, hkv, i, h1, h2, hu⟩ := hact
  have hkn : kv.1 < g.num_nodes := by
    rw [hbc] at hkv
    exact (hinv.1 kv hkv).1
  have htgtn : (g.edgeAt i).tgt < g.num_nodes := by
    have hle := offAt_le_len hwf (v := kv.1 + 1) (by omega)
    exact hwf.2.2.2 _ (getD_mem (by omega))
  have hlook : lookupKV (contain_fire cfg (bumpTime s)).node_data.burning kv.1
      = some kv.2 := by
    refine (lookup_mem_iff ?_).mpr hkv
    rw [hbc]; exact hinv.2
  have hfinal : lookupKV (exec_step cfg g s).node_data.burning kv.1 = some kv.2 := by
    rw [show exec_step cfg g s = spread_fire g (contain_fire cfg (bumpTime s)) from rfl,
      spread_fire_burning]
    split_ifs with hm
    · have hund := spread_scan_mem_undefended hm
      have hff : (contain_fire cfg (bumpTime s)).node_data.is_undefended kv.1 = false :=
        is_undefended_false_iff.mpr (Or.inl (by rw [hlook]; rfl))
      rw [hff] at hund
      exact absurd hund Bool.false_ne_true
    · exact hlook
  have htb : kv.2 ≤ (exec_step cfg g s).global_time := by
    rw [hbc] at hkv
    have := (hinv.1 kv hkv).2
    rw [exec_step_time]
    omega
  exact ⟨kv.1, kv.2, i, hfinal, htb, hkn, h1, h2, htgtn, hu⟩

theorem sim_reaches_inactive {cfg : SimCfg} {g : Graph} (hg : GoodExec cfg) (hwf : g.WF) :
    ∀ (N : Nat) (s : OSMFProblem), SimInv g s → undefCount g s.node_data ≤ N →
      ∃ k, (iterSteps cfg g k s).is_active = false := by
  intro N
  induction N with
  | zero =>
    intro s hinv hcnt
    cases hact : (exec_step cfg g s).is_active with
    | false => exact ⟨1, hact⟩
    | true =>
      obtain ⟨b, tb, i, _, _, _, _, _, htgtn, hu⟩ := active_step_witness hg hwf hinv hact
      have hus : s.node_data.is_undefended ((g.edgeAt i).tgt) = true := by
        cases hx : s.node_data.is_undefended ((g.edgeAt i).tgt) with
        | true => rfl
        | false =>
          rw [contain_notUndef (s := bumpTime s) hg hx] at hu
          exact absurd hu Bool.false_ne_true
      have hpos := countP_pos_of_mem (List.mem_range.mpr htgtn) hus
      have : 0 < undefCount g s.node_data := hpos
      omega
  | succ N ih =>
    intro s hinv hcnt
    cases hact : (exec_step cfg g s).is_active with
    | false => exact ⟨1, hact⟩
    | true =>
      obtain ⟨b, tb, i, hlook, htb, hbn, h1, h2, htgtn, hu⟩ :=
        active_step_witness hg hwf hinv hact
      have hinv1 : SimInv g (exec_step cfg g s) := simInv_step hg hwf hinv
      have hc2 : undefCount g (contain_fire cfg (bumpTime s)).node_data ≤
          undefCount g s.node_data := by
        apply countP_le_of_imp
        intro v _ hq
        cases hx : s.node_data.is_undefended v with
        | true => rfl
        | false =>
          rw [contain_notUndef (s := bumpTime s) hg hx] at hq
          exact absurd hq Bool.false_ne_true
      cases hcase : (exec_step cfg g s).node_data.is_undefended ((g.edgeAt i).tgt) with
      | false =>
        have hc1 : undefCount g (exec_step cfg g s).node_data <
            undefCount g (contain_fire cfg (bumpTime s)).node_data := by
          refine countP_lt_of_witness ?_ (List.mem_range.mpr htgtn) hcase hu
          intro v _ hq
          cases hx : (contain_fire cfg (bumpTime s)).node_data.is_undefended v with
          | true => rfl
          | false =>
            have hsp := spread_notUndef (g := g) (s := contain_fire cfg (bumpTime s)) hx
            rw [show (exec_step cfg g s) =
              spread_fire g (contain_fire cfg (bumpTime s)) from rfl] at hq
            rw [hsp] at hq
            exact absurd hq Bool.false_ne_true
        obtain ⟨k, hk⟩ := ih (exec_step cfg g s) hinv1 (by omega)
        refine ⟨1 + k, ?_⟩
        rw [iterSteps_add cfg g 1 k s]
        exact hk
      | true =>
        have hdead := burn_deadline hg hwf h1 h2 ((g.edgeAt i).dist + 1)
          (exec_step cfg g s) hinv1 hlook (by omega) (by omega)
        have hmono1 : undefCount g (exec_step cfg g s).node_data ≤
            undefCount g s.node_data := by
          refine le_trans ?_ hc2
          apply countP_le_of_imp
          intro v _ hq
          cases hx : (contain_fire cfg (bumpTime s)).node_data.is_undefended v with
          | true => rfl
          | false =>
            have hsp := spread_notUndef (g := g) (s := contain_fire cfg (bumpTime s)) hx
            rw [show (exec_step cfg g s) =
              spread_fire g (contain_fire cfg (bumpTime s)) from rfl] at hq
            rw [hsp] at hq
            exact absurd hq Bool.false_ne_true
        have hstrict : undefCount g (iterSteps cfg g ((g.edgeAt i).dist + 1)
            (exec_step cfg g s)).node_data < undefCount g (exec_step cfg g s).node_data := by
          refine countP_lt_of_witness ?_ (List.mem_range.mpr htgtn) hdead hcase
          intro v _ hq
          cases hx : (exec_step cfg g s).node_data.is_undefended v with
          | true => rfl
          | false =>
            rw [iter_notUndef hg _ _ _ hx] at hq
            exact absurd hq Bool.false_ne_true
        obtain ⟨k, hk⟩ := ih (iterSteps cfg g ((g.edgeAt i).dist + 1) (exec_step cfg g s))
          (iter_simInv hg hwf ((g.edgeAt i).dist + 1) (exec_step cfg g s) hinv1) (by omega)
        refine ⟨1 + ((g.edgeAt i).dist + 1) + k, ?_⟩
        rw [iterSteps_add cfg g (1 + ((g.edgeAt i).dist + 1)) k s,
          iterSteps_add cfg g 1 ((g.edgeAt i).dist + 1) s]
        exact hk

theorem simulateFuel_of_iter {cfg : SimCfg} {g : Graph} :
    ∀ (k : Nat) (s : OSMFProblem) (f : Nat),
      (iterSteps cfg g k s).is_active = false → k ≤ f →
      (simulateFuel cfg g f s).is_active = false := by
  intro k
  induction k with
  | zero =>
    intro s f h hf
    cases f with
    | zero => exact h
    | succ ff =>
      have h0 : s.is_active = false := h
      unfold simulateFuel
      rw [if_neg (by simp [h0])]
      exact h0
  | succ kk ih =>
    intro s f h hf
    cases f with
    | zero => omega
    | succ ff =>
      unfold simulateFuel
      by_cases ha : s.is_active = true
      · rw [if_pos ha]
        exact ih (exec_step cfg g s) ff h (by omega)
      · rw [if_neg ha]
        simp only [Bool.not_eq_true] at ha
        exact ha

/-- C10: for every well-formed graph, reachable state and strategy whose
`execute` respects the spec contract, the `while is_active` loop of
`simulate` terminates: after finitely many `exec_step` iterations
`is_active` is false, and `simulateFuel` with any fuel at least that bound
returns an inactive state. -/
theorem simulate_terminates (cfg : SimCfg) (g : Graph) (s : OSMFProblem)
    (hg : GoodExec cfg) (hwf : g.WF) (hinv : SimInv g s) :
    ∃ k, (iterSteps cfg g k s).is_active = false ∧
      ∀ f, k ≤ f → (simulateFuel cfg g f s).is_active = false := by
  obtain ⟨k, hk⟩ := sim_reaches_inactive hg hwf (undefCount g s.node_data) s hinv (le_refl _)
  exact ⟨k, hk, fun f hf => simulateFuel_of_iter k s f hk hf⟩

theorem simulate_terminates_witness :
    GoodExec idleCfg ∧ pathGraph.WF ∧ SimInv pathGraph rootState ∧
    ∃ k, (iterSteps idleCfg pathGraph k rootState).is_active = false ∧
      ∀ f, k ≤ f → (simulateFuel idleCfg pathGraph f rootState).is_active = false :=
  ⟨fun nd t => ⟨rfl, fun v h => h⟩, by decide, by decide,
    simulate_terminates idleCfg pathGraph rootState (fun nd t => ⟨rfl, fun v h => h⟩)
      (by decide) (by decide)⟩

/- ----------------------------------------------------------------- -/
/- Dijkstra: correctness of `run_dijkstra`                           -/
/- ----------------------------------------------------------------- -/

/-- Invariant of the Dijkstra loop state: distances are bounded by the
sentinel, every finite distance is achieved by a walk, every settled node
(finite distance, not queued) is optimal and fully relaxed, and the queue is
a duplicate-free set of valid, finitely-distanced node ids. -/
structure DInv (g : Graph) (src : Nat) (s : DState) : Prop where
  hlen : s.dist.length = g.num_nodes
  hnodup : s.pq.Nodup
  hpq_lt : ∀ v ∈ s.pq, v < g.num_nodes
  hpq_fin : ∀ v ∈ s.pq, s.dist.getD v 0 < USIZE_MAX
  hmax : ∀ v, s.dist.getD v 0 ≤ USIZE_MAX
  hsrc : s.dist.getD src 0 = 0
  hach : ∀ v, v < g.num_nodes → s.dist.getD v 0 < USIZE_MAX →
    HasWalk g src v (s.dist.getD v 0)
  hsettled : ∀ v, v < g.num_nodes → v ∉ s.pq → s.dist.getD v 0 < USIZE_MAX →
    ∀ W, HasWalk g src v W → s.dist.getD v 0 ≤ W
  hrelaxed : ∀ u, u < g.num_nodes → u ∉ s.pq → s.dist.getD u 0 < USIZE_MAX →
    ∀ i, g.offAt u ≤ i → i < g.offAt (u + 1) →
      s.dist.getD (g.edgeAt i).tgt 0 ≤ s.dist.getD u 0 + (g.edgeAt i).dist

theorem selMin_mem (dist : List Nat) :
    ∀ (xs : List Nat) (best : Nat), selMin dist best xs ∈ best :: xs := by
  intro xs
  induction xs with
  | nil => intro best; simp [selMin]
  | cons x xs ih =>
    intro best
    unfold selMin
    split_ifs with h
    · exact List.mem_cons_of_mem _ (ih x)
    · rcases List.mem_cons.mp (ih best) with h' | h'
      · rw [h']; exact List.mem_cons_self _ _
      · exact List.mem_cons_of_mem _ (List.mem_cons_of_mem _ h')

theorem selMin_le (dist : List Nat) :
    ∀ (xs : List Nat) (best : Nat), ∀ y ∈ best :: xs,
      dist.getD (selMin dist best xs) 0 ≤ dist.getD y 0 := by
  intro xs
  induction xs with
  | nil =>
    intro best y hy
    rcases List.mem_cons.mp hy with h | h
    · simp only [selMin]
      rw [h]
    · exact absurd h (List.not_mem_nil y)
  | cons x xs ih =>
    intro best y hy
    unfold selMin
    split_ifs with h
    · rcases List.mem_cons.mp hy with h' | h'
      · have h1 := ih x x (List.mem_cons_self _ _)
        rw [h']
        omega
      · exact ih x y h'
    · rcases List.mem_cons.mp hy with h' | h'
      · rw [h']
        exact ih best best (List.mem_cons_self _ _)
      · rcases List.mem_cons.mp h' with h'' | h''
        · have h1 := ih best best (List.mem_cons_self _ _)
          rw [h'']
          omega
        · exact ih best y (List.mem_cons_of_mem _ h'')

theorem hasWalk_lt {g : Graph} {src : Nat} (hwf : g.WF) (hsrc : src < g.num_nodes) :
    ∀ {v w : Nat}, HasWalk g src v w → v < g.num_nodes := by
  intro v w h
  induction h with
  | refl => exact hsrc
  | step hw h1 h2 ih =>
    rename_i u w' i
    have hle2 : g.offAt (u + 1) ≤ g.edges.length := offAt_le_len hwf (by omega)
    exact hwf.2.2.2 _ (getD_mem (by omega))

theorem minpop {g : Graph} {src : Nat} (hwf : g.WF) (hsrc : src < g.num_nodes)
    {s : DState} (hinv : DInv g src s) {m : Nat}
    (hmin : ∀ y ∈ s.pq, s.dist.getD m 0 ≤ s.dist.getD y 0) :
    ∀ {v w : Nat}, HasWalk g src v w →
      s.dist.getD v 0 ≤ w ∨ s.dist.getD m 0 ≤ w := by
  intro v w h
  induction h with
  | refl =>
    left
    rw [hinv.hsrc]
  | step hw h1 h2 ih =>
    rename_i u w' i
    rcases ih with ihl | ihr
    · by_cases hu : u ∈ s.pq
      · right
        have := hmin u hu
        omega
      · have hun : u < g.num_nodes := hasWalk_lt hwf hsrc hw
        by_cases hfin : s.dist.getD u 0 < USIZE_MAX
        · left
          have := hinv.hrelaxed u hun hu hfin i h1 h2
          omega
        · left
          have hle := hinv.hmax ((g.edgeAt i).tgt)
          have humax := hinv.hmax u
          omega
    · right
      omega

theorem end_bound {g : Graph} {src : Nat} (hwf : g.WF) (hsrc : src < g.num_nodes)
    {s : DState} (hinv : DInv g src s) (hpq : s.pq = []) :
    ∀ {v W : Nat}, HasWalk g src v W → s.dist.getD v 0 ≤ W := by
  intro v W h
  induction h with
  | refl =>
    rw [hinv.hsrc]
  | step hw h1 h2 ih =>
    rename_i u w i
    have hu : u < g.num_nodes := hasWalk_lt hwf hsrc hw
    have hupq : u ∉ s.pq := by rw [hpq]; exact List.not_mem_nil u
    by_cases hfin : s.dist.getD u 0 < USIZE_MAX
    · have := hinv.hrelaxed u hu hupq hfin i h1 h2
      omega
    · have h3 := hinv.hmax u
      have h4 := hinv.hmax ((g.edgeAt i).tgt)
      omega

theorem getD_replicate {α : Type} {a d : α} :
    ∀ {n i : Nat}, (List.replicate n a).getD i d = if i < n then a else d := by
  intro n
  induction n with
  | zero => intro i; simp
  | succ m ih =>
    intro i
    cases i with
    | zero => simp [List.replicate]
    | succ j =>
      simp only [List.replicate, List.getD_cons_succ, ih]
      by_cases h : j < m
      · rw [if_pos h, if_pos (by omega)]
      · rw [if_neg h, if_neg (by omega)]

theorem heapContains_iff {l : List Nat} {v : Nat} : heapContains l v = true ↔ v ∈ l := by
  unfold heapContains
  induction l with
  | nil => simp
  | cons a l ih => simp

/-- Intermediate invariant for the relaxation fold over the out-edges of the
freshly popped node `m`: `s1` is the state right after the pop, `L` the
still-unprocessed edge indices. -/
structure RelaxInv (g : Graph) (src : Nat) (s1 : DState) (m : Nat) (L : List Nat)
    (t : DState) : Prop where
  hlen : t.dist.length = g.num_nodes
  hle : ∀ v, t.dist.getD v 0 ≤ s1.dist.getD v 0
  hm : t.dist.getD m 0 = s1.dist.getD m 0
  hsub : ∀ v ∈ s1.pq, v ∈ t.pq
  hnodup : t.pq.Nodup
  hpq_lt : ∀ v ∈ t.pq, v < g.num_nodes
  hpq_fin : ∀ v ∈ t.pq, t.dist.getD v 0 < USIZE_MAX
  hchanged : ∀ v, t.dist.getD v 0 ≠ s1.dist.getD v 0 → v ∈ t.pq
  hsrcd : t.dist.getD src 0 = 0
  hmax : ∀ v, t.dist.getD v 0 ≤ USIZE_MAX
  hach : ∀ v, v < g.num_nodes → t.dist.getD v 0 < USIZE_MAX →
    HasWalk g src v (t.dist.getD v 0)
  hproc : ∀ i, g.offAt m ≤ i → i < g.offAt (m + 1) → i ∉ L →
    t.dist.getD (g.edgeAt i).tgt 0 ≤ s1.dist.getD m 0 + (g.edgeAt i).dist
  hmeas : dMeasure g t ≤ dMeasure g s1

theorem relaxInv_step {g : Graph} {src : Nat} {s1 : DState} {m : Nat}
    (hwf : g.WF) (hm_lt : m < g.num_nodes)
    (hm_walk : HasWalk g src m (s1.dist.getD m 0))
    {i0 : Nat} (hi0a : g.offAt m ≤ i0) (hi0b : i0 < g.offAt (m + 1))
    {L : List Nat} {t : DState} (hR : RelaxInv g src s1 m (i0 :: L) t) :
    RelaxInv g src s1 m L (relaxStep g m t i0) := by
  have htgt_lt : (g.edgeAt i0).tgt < g.num_nodes := by
    have hle2 : g.offAt (m + 1) ≤ g.edges.length := offAt_le_len hwf (by omega)
    exact hwf.2.2.2 _ (getD_mem (by omega))
  simp only [relaxStep]
  by_cases hupd : t.dist.getD m 0 + (g.edgeAt i0).dist < t.dist.getD ((g.edgeAt i0).tgt) 0
  · rw [if_pos hupd]
    -- relaxation fires: the target's distance is lowered
    have hdm : t.dist.getD m 0 = s1.dist.getD m 0 := hR.hm
    have htgt_len : (g.edgeAt i0).tgt < t.dist.length := by
      rw [hR.hlen]; exact htgt_lt
    have hdmax : t.dist.getD m 0 + (g.edgeAt i0).dist < USIZE_MAX := by
      have h1 := hR.hmax ((g.edgeAt i0).tgt)
      omega
    have htgt_ne_m : (g.edgeAt i0).tgt ≠ m := by
      intro he
      rw [he] at hupd
      omega
    have htgt_ne_src : (g.edgeAt i0).tgt ≠ src := by
      intro he
      rw [he, hR.hsrcd] at hupd
      omega
    have hget_tgt :
        (t.dist.set ((g.edgeAt i0).tgt) (t.dist.getD m 0 + (g.edgeAt i0).dist)).getD
          ((g.edgeAt i0).tgt) 0 = t.dist.getD m 0 + (g.edgeAt i0).dist :=
      getD_set_self htgt_len
    have hget_ne : ∀ v, (g.edgeAt i0).tgt ≠ v →
        (t.dist.set ((g.edgeAt i0).tgt) (t.dist.getD m 0 + (g.edgeAt i0).dist)).getD v 0
          = t.dist.getD v 0 := fun v hv => getD_set_ne hv
    have hdec : ∀ v,
        (t.dist.set ((g.edgeAt i0).tgt) (t.dist.getD m 0 + (g.edgeAt i0).dist)).getD v 0
          ≤ t.dist.getD v 0 := by
      intro v
      by_cases hv : (g.edgeAt i0).tgt = v
      · rw [← hv, hget_tgt]
        omega
      · rw [hget_ne v hv]
    have hpq_mem : ∀ v,
        (v ∈ (if heapContains t.pq ((g.edgeAt i0).tgt) = true then t.pq
          else heapPush t.pq ((g.edgeAt i0).tgt)) ↔
          (v ∈ t.pq ∨ v = (g.edgeAt i0).tgt)) := by
      intro v
      split_ifs with hc
      · constructor
        · exact Or.inl
        · rintro (h | h)
          · exact h
          · rw [h]; exact heapContains_iff.mp hc
      · unfold heapPush
        simp [List.mem_append]
    have hpq_nodup : (if heapContains t.pq ((g.edgeAt i0).tgt) = true then t.pq
        else heapPush t.pq ((g.edgeAt i0).tgt)).Nodup := by
      split_ifs with hc
      · exact hR.hnodup
      · unfold heapPush
        refine List.Nodup.append hR.hnodup (List.nodup_singleton _) ?_
        intro a ha hb
        rw [List.mem_singleton] at hb
        rw [hb] at ha
        exact absurd (heapContains_iff.mpr ha) (by simp [hc])
    refine {
      hlen := by rw [List.length_set]; exact hR.hlen
      hle := fun v => le_trans (hdec v) (hR.hle v)
      hm := by rw [hget_ne m htgt_ne_m, hR.hm]
      hsub := fun v hv => (hpq_mem v).mpr (Or.inl (hR.hsub v hv))
      hnodup := hpq_nodup
      hpq_lt := ?_
      hpq_fin := ?_
      hchanged := ?_
      hsrcd := by rw [hget_ne src htgt_ne_src, hR.hsrcd]
      hmax := ?_
      hach := ?_
      hproc := ?_
      hmeas := ?_ }
    · intro v hv
      rcases (hpq_mem v).mp hv with h | h
      · exact hR.hpq_lt v h
      · rw [h]; exact htgt_lt
    · intro v hv
      by_cases hveq : (g.edgeAt i0).tgt = v
      · rw [← hveq, hget_tgt]
        exact hdmax
      · rw [hget_ne v hveq]
        rcases (hpq_mem v).mp hv with h | h
        · exact hR.hpq_fin v h
        · exact absurd h.symm hveq
    · intro v hv
      by_cases hveq : (g.edgeAt i0).tgt = v
      · exact (hpq_mem v).mpr (Or.inr hveq.symm)
      · rw [hget_ne v hveq] at hv
        exact (hpq_mem v).mpr (Or.inl (hR.hchanged v hv))
    · intro v
      by_cases hveq : (g.edgeAt i0).tgt = v
      · rw [← hveq, hget_tgt]
        omega
      · rw [hget_ne v hveq]
        exact hR.hmax v
    · intro v hvlt hvfin
      by_cases hveq : (g.edgeAt i0).tgt = v
      · rw [← hveq, hget_tgt]
        have hwalk2 : HasWalk g src ((g.edgeAt i0).tgt)
            (s1.dist.getD m 0 + (g.edgeAt i0).dist) :=
          HasWalk.step hm_walk hi0a hi0b
        rw [hdm]
        exact hwalk2
      · rw [hget_ne v hveq] at hvfin ⊢
        exact hR.hach v hvlt hvfin
    · intro i h1 h2 hiL
      by_cases hii : i = i0
      · subst hii
        rw [hget_tgt, hdm]
      · have h3 := hR.hproc i h1 h2 (by
          intro hmem
          rcases List.mem_cons.mp hmem with h | h
          · exact hii h
          · exact hiL h)
        have hd := hdec ((g.edgeAt i).tgt)
        show (t.dist.set ((g.edgeAt i0).tgt)
            (t.dist.getD m 0 + (g.edgeAt i0).dist)).getD ((g.edgeAt i).tgt) 0 ≤
          s1.dist.getD m 0 + (g.edgeAt i).dist
        omega
    · have hsum := sum_set_add (l := t.dist)
        (i := (g.edgeAt i0).tgt) (a := t.dist.getD m 0 + (g.edgeAt i0).dist) htgt_len
      have hsum2 :
          (t.dist.set ((g.edgeAt i0).tgt) (t.dist.getD m 0 + (g.edgeAt i0).dist)).sum + 1
            ≤ t.dist.sum := by omega
      have hlen2 : (if heapContains t.pq ((g.edgeAt i0).tgt) = true then t.pq
          else heapPush t.pq ((g.edgeAt i0).tgt)).length ≤ t.pq.length + 1 := by
        split_ifs with hc
        · omega
        · unfold heapPush
          rw [List.length_append]
          simp
      have hmul := Nat.mul_le_mul_right (g.num_nodes + 1) hsum2
      rw [Nat.add_mul, Nat.one_mul] at hmul
      have hRm := hR.hmeas
      unfold dMeasure at hRm ⊢
      show (t.dist.set ((g.edgeAt i0).tgt)
          (t.dist.getD m 0 + (g.edgeAt i0).dist)).sum * (g.num_nodes + 1) +
        (if heapContains t.pq ((g.edgeAt i0).tgt) = true then t.pq
          else heapPush t.pq ((g.edgeAt i0).tgt)).length ≤
        s1.dist.sum * (g.num_nodes + 1) + s1.pq.length
      omega
  · rw [if_neg hupd]
    -- no relaxation: the state is unchanged
    refine {
      hlen := hR.hlen
      hle := hR.hle
      hm := hR.hm
      hsub := hR.hsub
      hnodup := hR.hnodup
      hpq_lt := hR.hpq_lt
      hpq_fin := hR.hpq_fin
      hchanged := hR.hchanged
      hsrcd := hR.hsrcd
      hmax := hR.hmax
      hach := hR.hach
      hproc := ?_
      hmeas := hR.hmeas }
    intro i h1 h2 hiL
    by_cases hii : i = i0
    · subst hii
      rw [← hR.hm]
      omega
    · exact hR.hproc i h1 h2 (by
        intro hmem
        rcases List.mem_cons.mp hmem with h | h
        · exact hii h
        · exact hiL h)

theorem relaxInv_fold {g : Graph} {src : Nat} {s1 : DState} {m : Nat}
    (hwf : g.WF) (hm_lt : m < g.num_nodes)
    (hm_walk : HasWalk g src m (s1.dist.getD m 0)) :
    ∀ (L : List Nat) (t : DState), (∀ i ∈ L, g.offAt m ≤ i ∧ i < g.offAt (m + 1)) →
      RelaxInv g src s1 m L t →
      RelaxInv g src s1 m [] (L.foldl (relaxStep g m) t) := by
  intro L
  induction L with
  | nil => intro t _ h; exact h
  | cons i0 L ih =>
    intro t hb hR
    have h0 := hb i0 (List.mem_cons_self _ _)
    exact ih (relaxStep g m t i0) (fun i hi => hb i (List.mem_cons_of_mem _ hi))
      (relaxInv_step hwf hm_lt hm_walk h0.1 h0.2 hR)

theorem dijkstra_iter_gen {g : Graph} {src : Nat} (hwf : g.WF) (hsrc : src < g.num_nodes)
    {s : DState} (hinv : DInv g src s) {m : Nat} (hm_mem : m ∈ s.pq)
    (hmin : ∀ y ∈ s.pq, s.dist.getD m 0 ≤ s.dist.getD y 0) :
    DInv g src (relaxAll g m { s with pq := s.pq.erase m }) ∧
    dMeasure g (relaxAll g m { s with pq := s.pq.erase m }) < dMeasure g s := by
  have hm_lt : m < g.num_nodes := hinv.hpq_lt _ hm_mem
  have hm_fin : s.dist.getD m 0 < USIZE_MAX := hinv.hpq_fin _ hm_mem
  have hm_walk : HasWalk g src m (s.dist.getD m 0) := hinv.hach _ hm_lt hm_fin
  have hs1d : ({ s with pq := s.pq.erase m } : DState).dist = s.dist := rfl
  have R0 : RelaxInv g src { s with pq := s.pq.erase m } m
      (natRange (g.offAt m) (g.offAt (m + 1))) { s with pq := s.pq.erase m } := {
    hlen := hinv.hlen
    hle := fun v => le_refl _
    hm := rfl
    hsub := fun v hv => hv
    hnodup := hinv.hnodup.erase _
    hpq_lt := fun v hv => hinv.hpq_lt v (List.mem_of_mem_erase hv)
    hpq_fin := fun v hv => hinv.hpq_fin v (List.mem_of_mem_erase hv)
    hchanged := fun v hv => absurd rfl hv
    hsrcd := hinv.hsrc
    hmax := hinv.hmax
    hach := hinv.hach
    hproc := fun i hi1 hi2 hiL => absurd (mem_natRange.mpr ⟨hi1, hi2⟩) hiL
    hmeas := le_refl _ }
  have hm_walk1 : HasWalk g src m
      (({ s with pq := s.pq.erase m } : DState).dist.getD m 0) := hm_walk
  have Rend := relaxInv_fold hwf hm_lt hm_walk1 _ _ (fun i hi =>
    ⟨(mem_natRange.mp hi).1, (mem_natRange.mp hi).2⟩) R0
  have hfold : relaxAll g m { s with pq := s.pq.erase m } =
      (natRange (g.offAt m) (g.offAt (m + 1))).foldl (relaxStep g m)
        { s with pq := s.pq.erase m } := rfl
  rw [← hfold] at Rend
  constructor
  · refine {
      hlen := Rend.hlen
      hnodup := Rend.hnodup
      hpq_lt := Rend.hpq_lt
      hpq_fin := Rend.hpq_fin
      hmax := Rend.hmax
      hsrc := Rend.hsrcd
      hach := Rend.hach
      hsettled := ?_
      hrelaxed := ?_ }
    · intro v hv hvpq hvfin W hw
      by_cases hvm : v = m
      · subst hvm
        have hval : (relaxAll g v { s with pq := s.pq.erase v }).dist.getD v 0 =
            s.dist.getD v 0 := Rend.hm
        rw [hval]
        rcases minpop hwf hsrc hinv hmin hw with h | h
        · exact h
        · exact h
      · have hnots : v ∉ s.pq := by
          intro hc
          exact hvpq (Rend.hsub v ((List.mem_erase_of_ne hvm).mpr hc))
        have hval : (relaxAll g m { s with pq := s.pq.erase m }).dist.getD v 0 =
            s.dist.getD v 0 := by
          by_contra hne
          exact hvpq (Rend.hchanged v hne)
        rw [hval] at hvfin ⊢
        exact hinv.hsettled v hv hnots hvfin W hw
    · intro u hu hupq hufin i hi1 hi2
      by_cases hum : u = m
      · subst hum
        have h3 := Rend.hproc i hi1 hi2 (List.not_mem_nil i)
        rw [Rend.hm]
        exact h3
      · have hnots : u ∉ s.pq := by
          intro hc
          exact hupq (Rend.hsub u ((List.mem_erase_of_ne hum).mpr hc))
        have hvalu : (relaxAll g m { s with pq := s.pq.erase m }).dist.getD u 0 =
            s.dist.getD u 0 := by
          by_contra hne
          exact hupq (Rend.hchanged u hne)
        rw [hvalu] at hufin
        have hsrel := hinv.hrelaxed u hu hnots hufin i hi1 hi2
        have hlet := Rend.hle ((g.edgeAt i).tgt)
        rw [hs1d] at hlet
        rw [hvalu]
        omega
  · have h1 := Rend.hmeas
    have h2 : dMeasure g { s with pq := s.pq.erase m } < dMeasure g s := by
      unfold dMeasure
      have hlen := List.length_erase_of_mem hm_mem
      have hpos : 1 ≤ s.pq.length := by
        cases hq : s.pq with
        | nil => rw [hq] at hm_mem; exact absurd hm_mem (List.not_mem_nil m)
        | cons a l => simp [hq]
      show s.dist.sum * (g.num_nodes + 1) + (s.pq.erase m).length <
        s.dist.sum * (g.num_nodes + 1) + s.pq.length
      omega
    omega

theorem dijkstraLoop_correct {g : Graph} {src : Nat} (hwf : g.WF)
    (hsrc : src < g.num_nodes) :
    ∀ (fuel : Nat) (s : DState), DInv g src s → dMeasure g s < fuel →
      DInv g src (dijkstraLoop g fuel s) ∧ (dijkstraLoop g fuel s).pq = [] := by
  intro fuel
  induction fuel with
  | zero =>
    intro s _ hmu
    omega
  | succ f ih =>
    intro s hinv hmu
    cases hpq : s.pq with
    | nil =>
      have heq : dijkstraLoop g (f + 1) s = s := by
        unfold dijkstraLoop
        rw [hpq]
      rw [heq]
      exact ⟨hinv, hpq⟩
    | cons x xs =>
      have heq : dijkstraLoop g (f + 1) s =
          dijkstraLoop g f (relaxAll g (selMin s.dist x xs)
            { s with pq := (x :: xs).erase (selMin s.dist x xs) }) := by
        conv_lhs => rw [dijkstraLoop]
        rw [hpq]
        rfl
      have hmem : selMin s.dist x xs ∈ s.pq := by
        rw [hpq]; exact selMin_mem s.dist xs x
      have hmin : ∀ y ∈ s.pq, s.dist.getD (selMin s.dist x xs) 0 ≤ s.dist.getD y 0 := by
        rw [hpq]; exact selMin_le s.dist xs x
      have hiter := dijkstra_iter_gen hwf hsrc hinv hmem hmin
      rw [hpq] at hiter
      rw [heq]
      exact ih _ hiter.1 (by omega)

/-- C4 (amended): for every well-formed graph and in-range source,
`run_dijkstra` returns distances with `distances[src] = 0`; every node's
distance is a lower bound of the weight of every directed path to it from
`src`; every distance below the `usize::MAX` sentinel is the weight of an
actual path (hence equals the minimum path weight whenever some path of
weight below `usize::MAX` exists); and every node with no path at all keeps
the sentinel `usize::MAX`. -/
theorem run_dijkstra_correct (g : Graph) (src : Nat) (hwf : g.WF)
    (hsrc : src < g.num_nodes) :
    (run_dijkstra g src).getD src 0 = 0 ∧
    ∀ v, v < g.num_nodes →
      ((∀ W, HasWalk g src v W → (run_dijkstra g src).getD v 0 ≤ W) ∧
       ((run_dijkstra g src).getD v 0 < USIZE_MAX →
         HasWalk g src v ((run_dijkstra g src).getD v 0)) ∧
       ((¬ ∃ W, HasWalk g src v W) → (run_dijkstra g src).getD v 0 = USIZE_MAX)) := by
  have hlen0 : ((List.replicate g.num_nodes USIZE_MAX).set src 0).length = g.num_nodes := by
    rw [List.length_set, List.length_replicate]
  have hget0 : ∀ v, ((List.replicate g.num_nodes USIZE_MAX).set src 0).getD v 0 =
      if v = src then 0 else if v < g.num_nodes then USIZE_MAX else 0 := by
    intro v
    by_cases hv : v = src
    · rw [hv, if_pos rfl]
      exact getD_set_self (by rw [List.length_replicate]; exact hsrc)
    · rw [if_neg hv, getD_set_ne (fun he => hv he.symm), getD_replicate]
  have hinv0 : DInv g src ⟨(List.replicate g.num_nodes USIZE_MAX).set src 0, [src]⟩ := {
    hlen := hlen0
    hnodup := List.nodup_singleton _
    hpq_lt := fun v hv => by rw [List.mem_singleton.mp hv]; exact hsrc
    hpq_fin := fun v hv => by
      rw [List.mem_singleton.mp hv, hget0, if_pos rfl]
      unfold USIZE_MAX
      norm_num
    hmax := fun v => by
      rw [hget0]
      split_ifs <;> omega
    hsrc := by rw [hget0, if_pos rfl]
    hach := fun v hv hfin => by
      rw [hget0] at hfin ⊢
      by_cases hvs : v = src
      · rw [if_pos hvs]
        subst hvs
        exact HasWalk.refl
      · rw [if_neg hvs, if_pos hv] at hfin
        omega
    hsettled := fun v hv hvpq hfin W hw => by
      rw [hget0] at hfin
      by_cases hvs : v = src
      · exact absurd (by rw [hvs]; exact List.mem_singleton.mpr rfl) hvpq
      · rw [if_neg hvs, if_pos hv] at hfin
        omega
    hrelaxed := fun u hu hupq hfin i h1 h2 => by
      rw [hget0] at hfin
      by_cases hus : u = src
      · exact absurd (by rw [hus]; exact List.mem_singleton.mpr rfl) hupq
      · rw [if_neg hus, if_pos hu] at hfin
        omega }
  have hmu0 : dMeasure g ⟨(List.replicate g.num_nodes USIZE_MAX).set src 0, [src]⟩ <
      dijkFuel g := by
    unfold dMeasure dijkFuel
    have hsum : ((List.replicate g.num_nodes USIZE_MAX).set src 0).sum + USIZE_MAX =
        (List.replicate g.num_nodes USIZE_MAX).sum + 0 := by
      have := sum_set_add (l := List.replicate g.num_nodes USIZE_MAX) (i := src) (a := 0)
        (by rw [List.length_replicate]; exact hsrc)
      rw [getD_replicate, if_pos hsrc] at this
      exact this
    have hrep : (List.replicate g.num_nodes USIZE_MAX).sum = g.num_nodes * USIZE_MAX := by
      rw [List.sum_replicate]
      simp [Nat.smul_one_eq_cast]
    have hsum2 : ((List.replicate g.num_nodes USIZE_MAX).set src 0).sum ≤
        g.num_nodes * USIZE_MAX := by omega
    have hmul := Nat.mul_le_mul_right (g.num_nodes + 1) hsum2
    have hexp : (g.num_nodes * USIZE_MAX + 1) * (g.num_nodes + 2) =
        g.num_nodes * USIZE_MAX * (g.num_nodes + 1) + g.num_nodes * USIZE_MAX +
          g.num_nodes + 2 := by ring
    show ((List.replicate g.num_nodes USIZE_MAX).set src 0).sum * (g.num_nodes + 1) +
      ([src] : List Nat).length < (g.num_nodes * USIZE_MAX + 1) * (g.num_nodes + 2)
    have hl1 : ([src] : List Nat).length = 1 := rfl
    omega
  obtain ⟨hinvF, hpqF⟩ := dijkstraLoop_correct hwf hsrc (dijkFuel g)
    ⟨(List.replicate g.num_nodes USIZE_MAX).set src 0, [src]⟩ hinv0 hmu0
  refine ⟨hinvF.hsrc, fun v hv => ⟨?_, ?_, ?_⟩⟩
  · intro W hw
    exact end_bound hwf hsrc hinvF hpqF hw
  · intro hfin
    exact hinvF.hach v hv hfin
  · intro hnow
    have hle := hinvF.hmax v
    by_cases hfin : (run_dijkstra g src).getD v 0 < USIZE_MAX
    · exact absurd ⟨_, hinvF.hach v hv hfin⟩ hnow
    · have hrw : run_dijkstra g src = (dijkstraLoop g (dijkFuel g)
        ⟨(List.replicate g.num_nodes USIZE_MAX).set src 0, [src]⟩).dist := rfl
      rw [hrw] at hfin ⊢
      omega

theorem run_dijkstra_correct_witness :
    pathGraph.WF ∧ (0 : Nat) < pathGraph.num_nodes ∧
    ((run_dijkstra pathGraph 0).getD 0 0 = 0 ∧
     ∀ v, v < pathGraph.num_nodes →
       ((∀ W, HasWalk pathGraph 0 v W → (run_dijkstra pathGraph 0).getD v 0 ≤ W) ∧
        ((run_dijkstra pathGraph 0).getD v 0 < USIZE_MAX →
          HasWalk pathGraph 0 v ((run_dijkstra pathGraph 0).getD v 0)) ∧
        ((¬ ∃ W, HasWalk pathGraph 0 v W) →
          (run_dijkstra pathGraph 0).getD v 0 = USIZE_MAX))) :=
  ⟨by decide, by decide, run_dijkstra_correct pathGraph 0 (by decide) (by decide)⟩

/-- A well-formed graph whose unique path from node 0 to node 2 has total
weight `usize::MAX + 2`, exceeding the sentinel. -/
def cexGraph : Graph :=
  { nodes := [], edges := [⟨0, 1, USIZE_MAX - 1⟩, ⟨1, 2, 3⟩], offsets := [0, 1, 2, 2],
    num_nodes := 3, num_edges := 2 }

theorem cex_walk_lb : ∀ {v w : Nat}, HasWalk cexGraph 0 v w →
    ((v = 1 → USIZE_MAX - 1 ≤ w) ∧ (v = 2 → USIZE_MAX + 2 ≤ w)) := by
  intro v w h
  induction h with
  | refl => exact ⟨fun hc => by omega, fun hc => by omega⟩
  | step hw h1 h2 ih =>
    rename_i u w' i
    by_cases hu4 : 4 ≤ u + 1
    · have h0 : cexGraph.offAt (u + 1) = 0 := by
        unfold Graph.offAt
        refine List.getD_eq_default _ _ ?_
        show ([0, 1, 2, 2] : List Nat).length ≤ u + 1
        simp
        omega
      rw [h0] at h2
      omega
    · have hu3 : u ≤ 2 := by omega
      interval_cases u
      · have hi : i = 0 := by
          have e1 : cexGraph.offAt 0 = 0 := rfl
          have e2 : cexGraph.offAt 1 = 1 := rfl
          rw [e1] at h1
          rw [e2] at h2
          omega
        subst hi
        show ((1 : Nat) = 1 → USIZE_MAX - 1 ≤ w' + (USIZE_MAX - 1)) ∧
          ((1 : Nat) = 2 → USIZE_MAX + 2 ≤ w' + (USIZE_MAX - 1))
        exact ⟨fun _ => by omega, fun hc => by omega⟩
      · have hi : i = 1 := by
          have e1 : cexGraph.offAt 1 = 1 := rfl
          have e2 : cexGraph.offAt 2 = 2 := rfl
          rw [e1] at h1
          rw [e2] at h2
          omega
        subst hi
        show ((2 : Nat) = 1 → USIZE_MAX - 1 ≤ w' + 3) ∧
          ((2 : Nat) = 2 → USIZE_MAX + 2 ≤ w' + 3)
        have hle := ih.1 rfl
        have hM : 1 ≤ USIZE_MAX := by decide
        exact ⟨fun hc => by omega, fun _ => by omega⟩
      · have e1 : cexGraph.offAt 2 = 2 := rfl
        have e2 : cexGraph.offAt 3 = 2 := rfl
        rw [e1] at h1
        rw [e2] at h2
        omega

theorem cex_walk_exists : HasWalk cexGraph 0 2 (USIZE_MAX + 2) := by
  have h1 : HasWalk cexGraph 0 ((cexGraph.edgeAt 0).tgt) (0 + (cexGraph.edgeAt 0).dist) :=
    HasWalk.step HasWalk.refl (by decide) (by decide)
  have h2 : HasWalk cexGraph 0 ((cexGraph.edgeAt 1).tgt)
      ((0 + (cexGraph.edgeAt 0).dist) + (cexGraph.edgeAt 1).dist) :=
    HasWalk.step h1 (by decide) (by decide)
  have hval : (0 + (cexGraph.edgeAt 0).dist) + (cexGraph.edgeAt 1).dist =
      USIZE_MAX + 2 := by decide
  rw [← hval]
  exact h2

/-- C4 (counterexample): on `cexGraph` node 2 is reachable — its unique path
from node 0 has weight `usize::MAX + 2` — yet `run_dijkstra` returns the
sentinel `usize::MAX` for it, which is not the weight of any path to node 2,
so the returned distance is not the minimum path weight of this reachable
node.  (On the same input the Rust binary cannot return it either: the
relaxation `distances[node] + edge.dist` overflows `usize`, panicking in a
debug build and wrapping in a release build.) -/
theorem run_dijkstra_overflow_counterexample :
    cexGraph.WF ∧ (0 : Nat) < cexGraph.num_nodes ∧ (2 : Nat) < cexGraph.num_nodes ∧
    HasWalk cexGraph 0 2 (USIZE_MAX + 2) ∧
    (run_dijkstra cexGraph 0).getD 2 0 = USIZE_MAX ∧
    ¬ HasWalk cexGraph 0 2 ((run_dijkstra cexGraph 0).getD 2 0) ∧
    USIZE_MAX ≠ USIZE_MAX + 2 := by
  have hval : (run_dijkstra cexGraph 0).getD 2 0 = USIZE_MAX := by decide
  refine ⟨by decide, by decide, by decide, cex_walk_exists, hval, ?_, by omega⟩
  intro hcontra
  rw [hval] at hcontra
  have := (cex_walk_lb hcontra).2 rfl
  omega

end OSMF
